import Mathlib

/-!
# SHMApplet: simple harmonic motion applet

A shallow embedding of `src/SHMApplet.jsx`: the position formula, the sampler loop
that fills the chart table, and the component as a transition system over the
events that reach it (animation frames, slider changes, unmount).

The component computes with JavaScript numbers. The definitions below are written
once, over any number type `α` that provides the operations the component uses
(`JSNum α`), with `Math.cos` passed as a parameter. Two instances are given:

* `F64`: IEEE 754 binary64 with round to nearest, ties to even, on the finite
  values (the arithmetic the component really runs);
* `ℝ`: exact real arithmetic, the idealisation in which `Math.cos` is `Real.cos`
  and `Math.PI` is `Real.pi`.
-/

namespace SHMApplet

/-! ## Numbers -/

/-- Operations on JavaScript numbers that the component uses. -/
class JSNum (α : Type) where
  /-- The binary operator `+`. -/
  add : α → α → α
  /-- The binary operator `-`. -/
  sub : α → α → α
  /-- The operator `*`. -/
  mul : α → α → α
  /-- The operator `/`. -/
  div : α → α → α
  /-- The unary operator `-`. -/
  neg : α → α
  /-- The comparison `<=`. -/
  le : α → α → Bool
  /-- The comparison `Object.is`, which React applies to hook dependencies. -/
  same : α → α → Bool
  /-- The value of a decimal numeric literal. -/
  lit : ℚ → α
  /-- The constant `Math.PI`. -/
  PI : α
  /-- The expression `+v.toFixed(2)`: the number denoted by the two-decimals string of `v`. -/
  toFixed2 : α → α

/-- The operators `+`, `-`, `*`, `/` and unary `-` of the component, written infix. They
have low priority, so that on `ℝ` the usual operations are the ones in scope. -/
instance (priority := low) instAddJSNum {α : Type} [JSNum α] : Add α := ⟨JSNum.add⟩
instance (priority := low) instSubJSNum {α : Type} [JSNum α] : Sub α := ⟨JSNum.sub⟩
instance (priority := low) instMulJSNum {α : Type} [JSNum α] : Mul α := ⟨JSNum.mul⟩
instance (priority := low) instDivJSNum {α : Type} [JSNum α] : Div α := ⟨JSNum.div⟩
instance (priority := low) instNegJSNum {α : Type} [JSNum α] : Neg α := ⟨JSNum.neg⟩

/-! ### IEEE 754 binary64 -/

/-- The least `j` from the given one with `n < 2 ^ (2 ^ j)`. -/
def log2Levels : Nat → Nat → Nat → Nat
  | 0, _, j => j
  | fuel + 1, n, j => if n < 2 ^ (2 ^ j) then j else log2Levels fuel n (j + 1)

/-- Binary search for the exponent over `j` levels: `acc` grows by each width `2 ^ i`,
from the largest down, that keeps `2 ^ acc ≤ n`. -/
def log2Search : Nat → Nat → Nat → Nat
  | 0, _, acc => acc
  | j + 1, n, acc =>
    if 2 ^ (acc + 2 ^ j) ≤ n then log2Search j n (acc + 2 ^ j) else log2Search j n acc

/-- Binary logarithm of a natural number `n > 0`, rounded down. -/
def log2 (n : Nat) : Nat :=
  log2Search (log2Levels n n 0) n 0

/-- For `n, d > 0`, the exponent `e` with `2 ^ e ≤ n / d < 2 ^ (e + 1)`. -/
def ilog2 (n d : Nat) : Int :=
  let k : Int := (log2 n : Int) - (log2 d : Int)
  let reached : Bool :=
    if 0 ≤ k then decide (2 ^ k.toNat * d ≤ n) else decide (d ≤ 2 ^ (-k).toNat * n)
  if reached then k else k - 1

/-- Nearest integer to the fraction `n / d`, a tie going to the even neighbour. -/
def roundHalfEven (n d : Nat) : Nat :=
  let q := n / d
  let r := n % d
  if 2 * r < d then q else if d < 2 * r then q + 1 else if q % 2 = 0 then q else q + 1

/-- Exponent of the unit in the last place of the binary64 format at the fraction
`n / d > 0`: 53 significant bits, and no exponent below that of the subnormals. -/
def ulpExp (n d : Nat) : Int :=
  max (ilog2 n d) (-1022) - 52

/-- Rounding of the fraction `n / d > 0` to binary64: with `s` the exponent of the unit
in the last place, the result is `m * 2 ^ s` for `m` the rounding of `(n / d) / 2 ^ s`
to an integer. -/
def flPos (n d : Nat) : ℚ :=
  let s := ulpExp n d
  if 0 ≤ s then ((roundHalfEven n (d * 2 ^ s.toNat) * 2 ^ s.toNat : Nat) : ℚ)
  else mkRat (roundHalfEven (n * 2 ^ (-s).toNat) d) (2 ^ (-s).toNat)

/-- Rounding of an exact value to binary64: nearest, ties to even, with gradual underflow
below `2 ^ (-1022)`. Overflow to `Infinity` is not represented: beyond the largest finite
double the exponent keeps growing. -/
def fl (q : ℚ) : ℚ :=
  if q.num = 0 then 0
  else if 0 < q.num then flPos q.num.natAbs q.den
  else -flPos q.num.natAbs q.den

/-- A finite JavaScript number, given by the rational it denotes. `NaN`, the infinities
and the sign of zero are not represented. -/
structure F64 where
  /-- The exact value. -/
  val : ℚ
deriving DecidableEq

/-- The expression `+v.toFixed(2)` on binary64. `toFixed(2)` prints the integer `k` for
which `k / 100` is closest to the exact value of `|v|` (the larger `k` on a tie), that is
the floor of `100 * |v| + 1 / 2`, with two decimals and the sign of `v`; from `10 ^ 21`
on it prints `v` itself. Unary `+` reads the string back as the nearest double. -/
def F64.toFixed2 (v : F64) : F64 :=
  let n := v.val.num.natAbs
  let d := v.val.den
  if 10 ^ 21 * d ≤ n then v
  else
    let k : Nat := (200 * n + d) / (2 * d)
    if 0 ≤ v.val.num then ⟨fl (mkRat k 100)⟩ else ⟨-fl (mkRat k 100)⟩

/-- The arithmetic of binary64: every operation is the exact one followed by rounding,
a literal is the double nearest to its decimal value, and `Math.PI` is the double
`0x1.921fb54442d18p+1`. A division by zero, which JavaScript answers with an infinity or
`NaN`, is not represented; the component divides by `1000` only. -/
instance instJSNumF64 : JSNum F64 where
  add a b := ⟨fl (a.val + b.val)⟩
  sub a b := ⟨fl (a.val - b.val)⟩
  mul a b := ⟨fl (a.val * b.val)⟩
  div a b := ⟨fl (a.val / b.val)⟩
  neg a := ⟨-a.val⟩
  le a b := decide (a.val ≤ b.val)
  same a b := decide (a = b)
  lit q := ⟨fl q⟩
  PI := ⟨884279719003555 / 281474976710656⟩
  toFixed2 := F64.toFixed2

/-! ### Exact real arithmetic -/

/-- The arithmetic of the real numbers, without rounding. -/
noncomputable instance instJSNumReal : JSNum ℝ where
  add a b := a + b
  sub a b := a - b
  mul a b := a * b
  div a b := a / b
  neg a := -a
  le a b := decide (a ≤ b)
  same a b := decide (a = b)
  lit q := (q : ℝ)
  PI := Real.pi
  toFixed2 v := if 0 ≤ v then (Int.floor (100 * |v| + 1 / 2) : ℝ) / 100
    else -((Int.floor (100 * |v| + 1 / 2) : ℝ) / 100)

/-! ## Position and sampler -/

section Component

variable {α : Type} [JSNum α]

open JSNum

/-- One entry `{ t, x }` of the chart table. -/
structure Sample (α : Type) where
  /-- The sample time. -/
  t : α
  /-- The position at that time. -/
  x : α
deriving DecidableEq

/-- Line 59: `const omega = 2 * Math.PI * frequency`. -/
def omega (frequency : α) : α :=
  lit 2 * PI * frequency

/-- Line 60: `const x = amplitude * Math.cos(omega * t + phase)`. -/
def x (cos : α → α) (amplitude frequency phase t : α) : α :=
  amplitude * cos (omega frequency * t + phase)

/-- Line 65: `const totalT = 8`. -/
def totalT : α := lit 8

/-- Line 66: `const dt = 0.02`. -/
def dt : α := lit 0.02

/-- Lines 67 to 70: the loop `for (let tau = 0; tau <= totalT; tau += dt) pts.push(...)`
followed by `return pts`, started at `tau` with the samples `pts` pushed so far. The
closure reads `amplitude`, `omega` and `phase` of the render that created it. Each
iteration takes one unit of `fuel`; `none` means that the fuel ran out. -/
def dataLoop (cos : α → α) (amplitude omega phase : α) :
    Nat → α → List (Sample α) → Option (List (Sample α))
  | 0, _, _ => none
  | fuel + 1, tau, pts =>
    if le tau totalT then
      dataLoop cos amplitude omega phase fuel (tau + dt)
        (pts ++ [⟨toFixed2 tau, amplitude * cos (omega * tau + phase)⟩])
    else some pts

/-- Lines 63 to 71: the factory passed to `useMemo`: `pts = []`, the loop from `tau = 0`,
`return pts`, in a render with the given `amplitude`, `frequency` and `phase`. -/
def data (cos : α → α) (fuel : Nat) (amplitude frequency phase : α) :
    Option (List (Sample α)) :=
  dataLoop cos amplitude (omega frequency) phase fuel (lit 0) []

/-- The values that `tau` takes in the loop of `dataLoop` while the body runs. -/
def loopTimes : Nat → α → Option (List α)
  | 0, _ => none
  | fuel + 1, tau =>
    if le tau totalT then (loopTimes fuel (tau + dt)).map (fun l => tau :: l)
    else some []

/-- The first `n` iterations of the loop of `dataLoop` from `tau`: the values of `tau` at
which the body runs and the value of `tau` after them; `none` if the loop ends earlier. -/
def loopSegment : Nat → α → Option (List α × α)
  | 0, tau => some ([], tau)
  | n + 1, tau =>
    if le tau totalT then (loopSegment n (tau + dt)).map (fun p => (tau :: p.1, p.2))
    else none

/-! ## The component as a transition system -/

/-- The cell of the `useMemo` hook: the dependency values of the render that last ran
the factory, and the table it returned. -/
structure Memo (α : Type) where
  /-- The dependency list `[amplitude, frequency, phase]`. -/
  deps : α × α × α
  /-- The cached table. -/
  value : List (Sample α)

/-- State of a mounted component together with the part of the browser it talks to. -/
structure State (α : Type) where
  /-- Line 42: state of `useState(120)`. -/
  amplitude : α
  /-- Line 43: state of `useState(0.5)`. -/
  frequency : α
  /-- Line 44: state of `useState(0)`. -/
  phase : α
  /-- Line 45: state of `useState(0)`, the elapsed time in seconds. -/
  t : α
  /-- Line 63: the cell of `useMemo`, empty before the first render. -/
  data : Option (Memo α)
  /-- Line 50: `const start = performance.now()`, captured by the effect. -/
  start : α
  /-- Line 49: `let frame`, the handle returned by the last `requestAnimationFrame(loop)`,
  of the effect or of `loop` itself. -/
  frame : Nat
  /-- Browser: the handles in the map of animation frame callbacks. The only callback
  this component registers is `loop`. -/
  callbacks : List Nat
  /-- Browser: the animation frame callback identifier, the last handle given out. -/
  handle : Nat
  /-- Ghost counter: how many times the `useMemo` factory has run. -/
  regenerations : Nat

/-- Browser: `requestAnimationFrame(loop)` increments the identifier, adds the callback
under it and returns it (the returned handle is the new `handle` field). -/
def requestAnimationFrame (s : State α) : State α :=
  { s with handle := s.handle + 1, callbacks := s.callbacks ++ [s.handle + 1] }

/-- Browser: `cancelAnimationFrame(h)` removes the entry `h` from the map. -/
def cancelAnimationFrame (h : Nat) (s : State α) : State α :=
  { s with callbacks := s.callbacks.filter (fun k => k != h) }

/-- Lines 51 to 54: the callback `loop(now)`. -/
def loop (now : α) (s : State α) : State α :=
  let s1 := { s with t := (now - s.start) / lit 1000 }
  let s2 := requestAnimationFrame s1
  { s2 with frame := s2.handle }

/-- The test of `useMemo`: the cell is filled and every dependency of this render is the
stored one under `Object.is`. -/
def depsUnchanged (s : State α) : Bool :=
  match s.data with
  | some m => same m.deps.1 s.amplitude && same m.deps.2.1 s.frequency
      && same m.deps.2.2 s.phase
  | none => false

/-- Lines 59 to 71: one render. `omega` and `x` are recomputed (`position` below gives
`x`); `useMemo` returns the stored table when `depsUnchanged` holds, and otherwise runs
its factory `data` and stores the result with the dependencies of this render. -/
def render (cos : α → α) (fuel : Nat) (s : State α) : Option (State α) :=
  if depsUnchanged s then some s
  else
    (data cos fuel s.amplitude s.frequency s.phase).map fun pts =>
      { s with data := some ⟨(s.amplitude, s.frequency, s.phase), pts⟩,
               regenerations := s.regenerations + 1 }

/-- What happens to a component. -/
inductive Event (α : Type) where
  /-- Browser: the animation frame callbacks are run with timestamp `now`. -/
  | animationFrame (now : α)
  /-- Line 138: `onChange` of the amplitude slider with `+e.target.value = value`. -/
  | changeAmplitude (value : α)
  /-- Line 151: `onChange` of the frequency slider with `+e.target.value = value`. -/
  | changeFrequency (value : α)
  /-- Line 164: `onChange` of the phase slider with `+e.target.value = value`. -/
  | changePhase (value : α)
  /-- Line 56: React runs the cleanup of the effect. -/
  | unmount

/-- Browser: run the animation frame callbacks. Every handle that was in the map when
the frame began, and is still there when its turn comes, is removed and its callback
`loop` invoked with `now`. -/
def runCallbacks (now : α) (s : State α) : State α :=
  s.callbacks.foldl
    (fun acc h => if acc.callbacks.contains h
      then loop now { acc with callbacks := acc.callbacks.filter (fun k => k != h) }
      else acc)
    s

/-- One event: the handler runs, then React renders again (no render after unmount).
Events after the cleanup are not excluded; what is proved about them holds all the more
of a component that receives none. -/
def step (cos : α → α) (fuel : Nat) (s : State α) : Event α → Option (State α)
  | Event.animationFrame now => render cos fuel (runCallbacks now s)
  | Event.changeAmplitude value => render cos fuel { s with amplitude := value }
  | Event.changeFrequency value => render cos fuel { s with frequency := value }
  | Event.changePhase value => render cos fuel { s with phase := value }
  | Event.unmount => some (cancelAnimationFrame s.frame s)

/-- A sequence of events, in order. -/
def run (cos : α → α) (fuel : Nat) (s : State α) : List (Event α) → Option (State α)
  | [] => some s
  | e :: es => (step cos fuel s e).bind (fun s1 => run cos fuel s1 es)

/-- Lines 48 to 57: the body of the effect, run once after the first render with
`performance.now() = now`. -/
def effect (now : α) (s : State α) : State α :=
  let s1 := requestAnimationFrame { s with start := now }
  { s1 with frame := s1.handle }

/-- Mounting: the first render with the initial hook states, then the effect. `now` is
the reading of `performance.now()` in the effect and `handle` the identifier of the
browser at that time; until the effect assigns them, `start` and `frame` hold these two
as placeholders. -/
def mount (cos : α → α) (fuel : Nat) (now : α) (handle : Nat) : Option (State α) :=
  (render cos fuel
    { amplitude := lit 120, frequency := lit 0.5, phase := lit 0, t := lit 0,
      data := none, start := now, frame := handle, callbacks := [], handle := handle,
      regenerations := 0 }).map (effect now)

/-- The position drawn for a state: `x` of its render. -/
def position (cos : α → α) (s : State α) : α :=
  x cos s.amplitude s.frequency s.phase s.t

/-- The state reached from mounting by a sequence of events. -/
def reach (cos : α → α) (fuel : Nat) (now : α) (handle : Nat) (events : List (Event α)) :
    Option (State α) :=
  (mount cos fuel now handle).bind (fun s => run cos fuel s events)

/-- The elapsed time `t` read after each event of a sequence. -/
def elapsedTrace (cos : α → α) (fuel : Nat) : State α → List (Event α) → Option (List α)
  | _, [] => some []
  | s, e :: es =>
    (step cos fuel s e).bind (fun s1 => (elapsedTrace cos fuel s1 es).map (fun l => s1.t :: l))

/-- The timestamps of the animation frames of a sequence of events, in order. -/
def frameTimes : List (Event α) → List α
  | [] => []
  | Event.animationFrame now :: es => now :: frameTimes es
  | _ :: es => frameTimes es

/-- Lines 134 to 136: `min="20" max="200"` of the amplitude slider. -/
def amplitudeInRange (v : α) : Bool :=
  le (lit 20) v && le v (lit 200)

/-- Lines 147 to 149: `min="0.1" max="2"` of the frequency slider. -/
def frequencyInRange (v : α) : Bool :=
  le (lit 0.1) v && le v (lit 2)

/-- Lines 160 to 162: `min={-Math.PI} max={Math.PI}` of the phase slider. -/
def phaseInRange (v : α) : Bool :=
  le (-PI) v && le v PI

/-- The value carried by a slider event lies between `min` and `max` of its slider. -/
def Event.inRange : Event α → Bool
  | Event.changeAmplitude value => amplitudeInRange value
  | Event.changeFrequency value => frequencyInRange value
  | Event.changePhase value => phaseInRange value
  | _ => true

/-- All three parameters of a state lie within the range of their slider. -/
def State.inRange (s : State α) : Bool :=
  amplitudeInRange s.amplitude && frequencyInRange s.frequency && phaseInRange s.phase

/-- The cell of `useMemo` holds the table of the current parameters. -/
def Coherent (cos : α → α) (fuel : Nat) (s : State α) : Prop :=
  ∃ pts, s.data = some ⟨(s.amplitude, s.frequency, s.phase), pts⟩
    ∧ data cos fuel s.amplitude s.frequency s.phase = some pts

/-- The cell of `useMemo` is empty or holds the table of the dependencies stored with it. -/
def CellOk (cos : α → α) (fuel : Nat) (s : State α) : Prop :=
  ∀ m, s.data = some m → data cos fuel m.deps.1 m.deps.2.1 m.deps.2.2 = some m.value

/-- The table held by the cell of `useMemo`, if any. -/
def State.table (s : State α) : Option (List (Sample α)) :=
  s.data.map Memo.value

end Component

/-- The values of `tau` at which the body of the sampler loop runs in binary64. -/
def f64Times : List F64 :=
  (loopTimes 402 (JSNum.lit 0 : F64)).getD []

open JSNum

/-! ## Rounding to binary64 -/

theorem log2Search_spec : ∀ (j n acc : Nat), 2 ^ acc ≤ n → n < 2 ^ (acc + 2 ^ j) →
    2 ^ log2Search j n acc ≤ n ∧ n < 2 ^ (log2Search j n acc + 1) := by
  intro j
  induction j with
  | zero =>
    intro n acc h1 h2
    simpa [log2Search] using ⟨h1, h2⟩
  | succ j ih =>
    intro n acc h1 h2
    unfold log2Search
    split
    · rename_i h
      apply ih _ _ h
      have : acc + 2 ^ j + 2 ^ j = acc + 2 ^ (j + 1) := by rw [pow_succ]; ring
      rw [this]; exact h2
    · rename_i h
      exact ih _ _ h1 (not_le.mp h)

theorem log2Levels_spec : ∀ (fuel n j : Nat), n < 2 ^ (2 ^ (j + fuel)) →
    n < 2 ^ (2 ^ log2Levels fuel n j) := by
  intro fuel
  induction fuel with
  | zero => intro n j h; simpa [log2Levels] using h
  | succ fuel ih =>
    intro n j h
    unfold log2Levels
    split
    · assumption
    · apply ih
      rw [show j + 1 + fuel = j + (fuel + 1) by ring]
      exact h

theorem log2_spec (n : Nat) (hn : 0 < n) : 2 ^ log2 n ≤ n ∧ n < 2 ^ (log2 n + 1) := by
  unfold log2
  apply log2Search_spec
  · simpa using hn
  · rw [zero_add]
    apply log2Levels_spec
    rw [zero_add]
    calc n < 2 ^ n := Nat.lt_two_pow n
      _ ≤ 2 ^ (2 ^ n) := Nat.pow_le_pow_right (by norm_num) (le_of_lt (Nat.lt_two_pow n))

theorem ilog2_reached (n d : Nat) (hd : 0 < d) (k : Int) :
    (if 0 ≤ k then decide (2 ^ k.toNat * d ≤ n) else decide (d ≤ 2 ^ (-k).toNat * n)) = true
      ↔ (2 : ℚ) ^ k ≤ (n : ℚ) / d := by
  have hdq : (0 : ℚ) < d := by exact_mod_cast hd
  rw [le_div_iff₀ hdq]
  by_cases hk : 0 ≤ k
  · obtain ⟨m, rfl⟩ := Int.eq_ofNat_of_zero_le hk
    simp only [hk, if_true, decide_eq_true_eq, Int.toNat_ofNat, zpow_natCast]
    constructor
    · intro h; exact_mod_cast h
    · intro h; exact_mod_cast h
  · have hk' : 0 ≤ -k := by omega
    obtain ⟨m, hm⟩ := Int.eq_ofNat_of_zero_le hk'
    have hkm : k = -(m : ℤ) := by omega
    simp only [hk, if_false, decide_eq_true_eq, hm, Int.toNat_ofNat]
    rw [hkm, zpow_neg, zpow_natCast]
    have hp : (0 : ℚ) < 2 ^ m := by positivity
    rw [inv_mul_le_iff₀ hp]
    constructor
    · intro h; exact_mod_cast h
    · intro h; exact_mod_cast h

theorem ilog2_spec (n d : Nat) (hn : 0 < n) (hd : 0 < d) :
    (2 : ℚ) ^ ilog2 n d ≤ (n : ℚ) / d ∧ (n : ℚ) / d < (2 : ℚ) ^ (ilog2 n d + 1) := by
  have hdq : (0 : ℚ) < d := by exact_mod_cast hd
  obtain ⟨ha1, ha2⟩ := log2_spec n hn
  obtain ⟨hb1, hb2⟩ := log2_spec d hd
  have ha1q : (2 : ℚ) ^ (log2 n : ℤ) ≤ n := by rw [zpow_natCast]; exact_mod_cast ha1
  have ha2q : (n : ℚ) < 2 ^ ((log2 n : ℤ) + 1) := by
    rw [show ((log2 n : ℤ) + 1) = ((log2 n + 1 : ℕ) : ℤ) by push_cast; ring, zpow_natCast]
    exact_mod_cast ha2
  have hb1q : (2 : ℚ) ^ (log2 d : ℤ) ≤ d := by rw [zpow_natCast]; exact_mod_cast hb1
  have hb2q : (d : ℚ) < 2 ^ ((log2 d : ℤ) + 1) := by
    rw [show ((log2 d : ℤ) + 1) = ((log2 d + 1 : ℕ) : ℤ) by push_cast; ring, zpow_natCast]
    exact_mod_cast hb2
  have h2 : (0 : ℚ) < 2 := by norm_num
  have hupper : (n : ℚ) / d < (2 : ℚ) ^ ((log2 n : ℤ) - (log2 d : ℤ) + 1) := by
    rw [div_lt_iff₀ hdq]
    calc (n : ℚ) < 2 ^ ((log2 n : ℤ) + 1) := ha2q
      _ = 2 ^ ((log2 n : ℤ) - (log2 d : ℤ) + 1) * 2 ^ (log2 d : ℤ) := by
          rw [← zpow_add₀ (by norm_num : (2 : ℚ) ≠ 0)]; congr 1; ring
      _ ≤ 2 ^ ((log2 n : ℤ) - (log2 d : ℤ) + 1) * d :=
          mul_le_mul_of_nonneg_left hb1q (by positivity)
  have hlower : (2 : ℚ) ^ ((log2 n : ℤ) - (log2 d : ℤ) - 1) ≤ (n : ℚ) / d := by
    rw [le_div_iff₀ hdq]
    calc (2 : ℚ) ^ ((log2 n : ℤ) - (log2 d : ℤ) - 1) * d
        ≤ 2 ^ ((log2 n : ℤ) - (log2 d : ℤ) - 1) * 2 ^ ((log2 d : ℤ) + 1) :=
          mul_le_mul_of_nonneg_left hb2q.le (by positivity)
      _ = 2 ^ (log2 n : ℤ) := by
          rw [← zpow_add₀ (by norm_num : (2 : ℚ) ≠ 0)]; congr 1; ring
      _ ≤ n := ha1q
  unfold ilog2
  simp only
  by_cases hr : (2 : ℚ) ^ ((log2 n : ℤ) - (log2 d : ℤ)) ≤ (n : ℚ) / d
  · rw [if_pos ((ilog2_reached n d hd _).mpr hr)]
    exact ⟨hr, hupper⟩
  · rw [if_neg (fun h => hr ((ilog2_reached n d hd _).mp h))]
    refine ⟨hlower, ?_⟩
    rw [sub_add_cancel]
    exact not_le.mp hr

theorem roundHalfEven_cases (N D : Nat) :
    (roundHalfEven N D = N / D ∧ (2 * (N % D) < D ∨ (2 * (N % D) = D ∧ (N / D) % 2 = 0)))
      ∨ (roundHalfEven N D = N / D + 1
          ∧ (D < 2 * (N % D) ∨ (2 * (N % D) = D ∧ (N / D) % 2 ≠ 0))) := by
  unfold roundHalfEven
  simp only
  by_cases h1 : 2 * (N % D) < D
  · left; simp [h1]
  · by_cases h2 : D < 2 * (N % D)
    · right; simp [h1, h2]
    · have h3 : 2 * (N % D) = D := by omega
      by_cases h4 : (N / D) % 2 = 0
      · left; simp [h1, h2, h4, h3]
      · right; simp [h1, h2, h4, h3]

theorem roundHalfEven_exact (m D : Nat) (hD : 0 < D) : roundHalfEven (m * D) D = m := by
  unfold roundHalfEven
  simp [Nat.mul_div_cancel _ hD, hD]

theorem roundHalfEven_mono (N1 D1 N2 D2 : Nat) (h1 : 0 < D1) (h2 : 0 < D2)
    (h : N1 * D2 ≤ N2 * D1) : roundHalfEven N1 D1 ≤ roundHalfEven N2 D2 := by
  have e1 := Nat.div_add_mod N1 D1
  have e2 := Nat.div_add_mod N2 D2
  have hq : N1 / D1 ≤ N2 / D2 := by
    rw [Nat.le_div_iff_mul_le h2]
    have : N1 / D1 * D1 ≤ N1 := Nat.div_mul_le_self N1 D1
    have h3 : N1 / D1 * D2 * D1 ≤ N2 * D1 := by
      calc N1 / D1 * D2 * D1 = N1 / D1 * D1 * D2 := by ring
        _ ≤ N1 * D2 := Nat.mul_le_mul_right _ this
        _ ≤ N2 * D1 := h
    exact Nat.le_of_mul_le_mul_right h3 h1
  rcases Nat.lt_or_eq_of_le hq with hlt | heq
  · rcases roundHalfEven_cases N1 D1 with ⟨a, -⟩ | ⟨a, -⟩ <;>
    rcases roundHalfEven_cases N2 D2 with ⟨b, -⟩ | ⟨b, -⟩ <;> omega
  · have hr : (N1 % D1) * D2 ≤ (N2 % D2) * D1 := by
      have h5 : (D1 * (N1 / D1) + N1 % D1) * D2 ≤ (D2 * (N2 / D2) + N2 % D2) * D1 := by
        rw [e1, e2]; exact h
      rw [heq] at h5
      nlinarith
    rcases roundHalfEven_cases N1 D1 with ⟨a, ca⟩ | ⟨a, ca⟩ <;>
    rcases roundHalfEven_cases N2 D2 with ⟨b, cb⟩ | ⟨b, cb⟩
    · omega
    · omega
    · exfalso
      rcases ca with ca | ⟨ca, pa⟩ <;> rcases cb with cb | ⟨cb, pb⟩
      · nlinarith
      · nlinarith
      · nlinarith
      · rw [heq] at pa; exact pa pb
    · omega

/-- The rounding is within one half of the fraction. -/
theorem roundHalfEven_near (N D : Nat) (hD : 0 < D) :
    2 * (roundHalfEven N D * D) ≤ 2 * N + D ∧ 2 * N ≤ 2 * (roundHalfEven N D * D) + D := by
  have e := Nat.div_add_mod N D
  have hr := Nat.mod_lt N hD
  rcases roundHalfEven_cases N D with ⟨a, c⟩ | ⟨a, c⟩
  · rw [a]
    have : N / D * D = D * (N / D) := Nat.mul_comm _ _
    rcases c with c | ⟨c, -⟩ <;> omega
  · rw [a]
    have : (N / D + 1) * D = D * (N / D) + D := by ring
    rcases c with c | ⟨c, -⟩ <;> omega

/-- The value of `flPos`: the rounded multiple of the unit in the last place. -/
theorem flPos_eq (n d : Nat) (hd : 0 < d) :
    ∃ N D : Nat, 0 < D ∧ (N : ℚ) / D = (n : ℚ) / d / (2 : ℚ) ^ ulpExp n d
      ∧ flPos n d = (roundHalfEven N D : ℚ) * (2 : ℚ) ^ ulpExp n d := by
  have hdq : (d : ℚ) ≠ 0 := by exact_mod_cast hd.ne'
  unfold flPos
  simp only
  by_cases hs : 0 ≤ ulpExp n d
  · obtain ⟨m, hm⟩ := Int.eq_ofNat_of_zero_le hs
    rw [if_pos hs, hm]
    refine ⟨n, d * 2 ^ m, by positivity, ?_, ?_⟩
    · rw [zpow_natCast]; push_cast; field_simp
    · simp only [Int.toNat_ofNat, zpow_natCast]; push_cast; ring
  · have hs' : 0 ≤ -ulpExp n d := by omega
    obtain ⟨m, hm⟩ := Int.eq_ofNat_of_zero_le hs'
    have hsm : ulpExp n d = -(m : ℤ) := by omega
    rw [if_neg hs, hm, hsm]
    refine ⟨n * 2 ^ m, d, hd, ?_, ?_⟩
    · rw [zpow_neg, zpow_natCast]; push_cast; field_simp
    · simp only [Int.toNat_ofNat, zpow_neg, zpow_natCast]
      rw [Rat.mkRat_eq_div]
      push_cast
      rw [div_eq_mul_inv]

theorem flPos_nonneg (n d : Nat) (hd : 0 < d) : 0 ≤ flPos n d := by
  obtain ⟨N, D, -, -, h⟩ := flPos_eq n d hd
  rw [h]
  positivity

theorem cast_div_le_iff (N1 D1 N2 D2 : Nat) (h1 : 0 < D1) (h2 : 0 < D2) :
    (N1 : ℚ) / D1 ≤ (N2 : ℚ) / D2 ↔ N1 * D2 ≤ N2 * D1 := by
  have h1q : (0 : ℚ) < D1 := by exact_mod_cast h1
  have h2q : (0 : ℚ) < D2 := by exact_mod_cast h2
  rw [div_le_div_iff₀ h1q h2q]
  constructor
  · intro h; exact_mod_cast h
  · intro h; exact_mod_cast h

/-- Rounding to binary64 is monotone on positive fractions. -/
theorem flPos_mono (n1 d1 n2 d2 : Nat) (hn1 : 0 < n1) (hd1 : 0 < d1) (hn2 : 0 < n2)
    (hd2 : 0 < d2) (h : (n1 : ℚ) / d1 ≤ (n2 : ℚ) / d2) : flPos n1 d1 ≤ flPos n2 d2 := by
  obtain ⟨N1, D1, hD1, hv1, hf1⟩ := flPos_eq n1 d1 hd1
  obtain ⟨N2, D2, hD2, hv2, hf2⟩ := flPos_eq n2 d2 hd2
  obtain ⟨hl1, hu1⟩ := ilog2_spec n1 d1 hn1 hd1
  obtain ⟨hl2, hu2⟩ := ilog2_spec n2 d2 hn2 hd2
  have h2 : (1 : ℚ) < 2 := by norm_num
  have he : ilog2 n1 d1 ≤ ilog2 n2 d2 := by
    have hlt : (2 : ℚ) ^ ilog2 n1 d1 < 2 ^ (ilog2 n2 d2 + 1) :=
      lt_of_le_of_lt (le_trans hl1 h) hu2
    have := (zpow_lt_zpow_iff_right₀ h2).mp hlt
    omega
  have hs : ulpExp n1 d1 ≤ ulpExp n2 d2 := by
    unfold ulpExp
    have := max_le_max he (le_refl (-1022 : ℤ))
    omega
  rw [hf1, hf2]
  rcases eq_or_lt_of_le hs with heq | hlt
  · rw [heq]
    apply mul_le_mul_of_nonneg_right _ (by positivity)
    have hle : (N1 : ℚ) / D1 ≤ (N2 : ℚ) / D2 := by
      rw [hv1, hv2, heq]
      exact div_le_div_of_nonneg_right h (by positivity)
    exact_mod_cast roundHalfEven_mono N1 D1 N2 D2 hD1 hD2
      ((cast_div_le_iff N1 D1 N2 D2 hD1 hD2).mp hle)
  · -- the exponent of the second is larger, hence it is a normal number
    have hE2 : ulpExp n2 d2 = ilog2 n2 d2 - 52 := by
      unfold ulpExp at hlt ⊢
      rcases le_total (ilog2 n2 d2) (-1022) with hc | hc
      · rw [max_eq_right hc] at hlt
        have := le_max_right (ilog2 n1 d1) (-1022)
        omega
      · rw [max_eq_left hc]
    have hE1 : ilog2 n1 d1 ≤ ulpExp n1 d1 + 52 := by
      unfold ulpExp
      have := le_max_left (ilog2 n1 d1) (-1022)
      omega
    -- the first rounds to at most 2 ^ 53 units
    have hup : roundHalfEven N1 D1 ≤ 2 ^ 53 := by
      have hx : (N1 : ℚ) / D1 ≤ ((2 ^ 53 : ℕ) : ℚ) / (1 : ℕ) := by
        rw [hv1, div_le_iff₀ (by positivity)]
        push_cast
        rw [div_one]
        calc (n1 : ℚ) / d1 ≤ 2 ^ (ilog2 n1 d1 + 1) := hu1.le
          _ ≤ 2 ^ (ulpExp n1 d1 + 52 + 1) :=
              zpow_le_zpow_right₀ h2.le (by omega)
          _ = 2 ^ 53 * 2 ^ ulpExp n1 d1 := by
              rw [show ulpExp n1 d1 + 52 + 1 = 53 + ulpExp n1 d1 by ring,
                zpow_add₀ (by norm_num : (2 : ℚ) ≠ 0)]
              norm_num
      have := roundHalfEven_mono N1 D1 (2 ^ 53) 1 hD1 (by norm_num)
        ((cast_div_le_iff N1 D1 (2 ^ 53) 1 hD1 (by norm_num)).mp hx)
      rwa [show roundHalfEven (2 ^ 53) 1 = 2 ^ 53 from by
        have := roundHalfEven_exact (2 ^ 53) 1 (by norm_num); simpa using this] at this
    -- the second rounds to at least 2 ^ 52 units
    have hlow : 2 ^ 52 ≤ roundHalfEven N2 D2 := by
      have hx : ((2 ^ 52 : ℕ) : ℚ) / (1 : ℕ) ≤ (N2 : ℚ) / D2 := by
        rw [hv2, le_div_iff₀ (by positivity)]
        push_cast
        rw [div_one]
        calc (2 : ℚ) ^ 52 * 2 ^ ulpExp n2 d2 = 2 ^ ilog2 n2 d2 := by
              rw [hE2, show ilog2 n2 d2 = 52 + (ilog2 n2 d2 - 52) by ring,
                zpow_add₀ (by norm_num : (2 : ℚ) ≠ 0)]
              norm_num
          _ ≤ (n2 : ℚ) / d2 := hl2
      have := roundHalfEven_mono (2 ^ 52) 1 N2 D2 (by norm_num) hD2
        ((cast_div_le_iff (2 ^ 52) 1 N2 D2 (by norm_num) hD2).mp hx)
      rwa [show roundHalfEven (2 ^ 52) 1 = 2 ^ 52 from by
        have := roundHalfEven_exact (2 ^ 52) 1 (by norm_num); simpa using this] at this
    have hupq : (roundHalfEven N1 D1 : ℚ) ≤ 2 ^ 53 := by exact_mod_cast hup
    have hlowq : (2 : ℚ) ^ 52 ≤ (roundHalfEven N2 D2 : ℚ) := by exact_mod_cast hlow
    calc (roundHalfEven N1 D1 : ℚ) * 2 ^ ulpExp n1 d1
        ≤ 2 ^ 53 * 2 ^ ulpExp n1 d1 := mul_le_mul_of_nonneg_right hupq (by positivity)
      _ = 2 ^ 52 * 2 ^ (ulpExp n1 d1 + 1) := by
          rw [zpow_add₀ (by norm_num : (2 : ℚ) ≠ 0)]; norm_num; ring
      _ ≤ 2 ^ 52 * 2 ^ ulpExp n2 d2 :=
          mul_le_mul_of_nonneg_left (zpow_le_zpow_right₀ h2.le (by omega)) (by positivity)
      _ ≤ (roundHalfEven N2 D2 : ℚ) * 2 ^ ulpExp n2 d2 :=
          mul_le_mul_of_nonneg_right hlowq (by positivity)

theorem natAbs_div_den (q : ℚ) : ((q.num.natAbs : ℕ) : ℚ) / q.den = |q| := by
  have h := Rat.num_div_den q
  have hd : (0 : ℚ) < q.den := by exact_mod_cast q.den_pos
  have habs : |q| = |(q.num : ℚ)| / q.den := by
    conv_lhs => rw [← h]
    rw [abs_div, abs_of_pos hd]
  rw [habs, Nat.cast_natAbs, Int.cast_abs]

theorem fl_of_pos (q : ℚ) (hq : 0 < q) : fl q = flPos q.num.natAbs q.den := by
  have hn : 0 < q.num := Rat.num_pos.mpr hq
  unfold fl
  rw [if_neg hn.ne', if_pos hn]

theorem fl_of_neg (q : ℚ) (hq : q < 0) : fl q = -flPos q.num.natAbs q.den := by
  have hn : q.num < 0 := Rat.num_neg.mpr hq
  unfold fl
  rw [if_neg hn.ne, if_neg (not_lt.mpr hn.le)]

theorem fl_zero : fl 0 = 0 := by
  unfold fl
  simp

theorem fl_nonneg (q : ℚ) (hq : 0 ≤ q) : 0 ≤ fl q := by
  rcases eq_or_lt_of_le hq with h | h
  · rw [← h, fl_zero]
  · rw [fl_of_pos q h]
    exact flPos_nonneg _ _ q.den_pos

theorem fl_nonpos (q : ℚ) (hq : q ≤ 0) : fl q ≤ 0 := by
  rcases eq_or_lt_of_le hq with h | h
  · rw [h, fl_zero]
  · rw [fl_of_neg q h]
    have := flPos_nonneg q.num.natAbs q.den q.den_pos
    linarith

theorem fl_neg (q : ℚ) : fl (-q) = -fl q := by
  rcases lt_trichotomy q 0 with h | h | h
  · rw [fl_of_neg q h, fl_of_pos (-q) (by linarith)]
    simp
  · rw [h]; simp [fl_zero]
  · rw [fl_of_pos q h, fl_of_neg (-q) (by linarith)]
    simp

/-- Rounding to binary64 is monotone. -/
theorem fl_mono (q1 q2 : ℚ) (h : q1 ≤ q2) : fl q1 ≤ fl q2 := by
  rcases le_or_lt q1 0 with h1 | h1
  · rcases le_or_lt 0 q2 with h2 | h2
    · exact le_trans (fl_nonpos q1 h1) (fl_nonneg q2 h2)
    · have h1' : q1 < 0 := lt_of_le_of_lt h h2
      rw [fl_of_neg q1 h1', fl_of_neg q2 h2, neg_le_neg_iff]
      apply flPos_mono _ _ _ _ _ q2.den_pos _ q1.den_pos
      · rw [natAbs_div_den, natAbs_div_den, abs_of_neg h2, abs_of_neg h1']
        linarith
      · exact Int.natAbs_pos.mpr (Rat.num_ne_zero.mpr h2.ne)
      · exact Int.natAbs_pos.mpr (Rat.num_ne_zero.mpr h1'.ne)
  · have h2 : 0 < q2 := lt_of_lt_of_le h1 h
    rw [fl_of_pos q1 h1, fl_of_pos q2 h2]
    apply flPos_mono _ _ _ _ _ q1.den_pos _ q2.den_pos
    · rw [natAbs_div_den, natAbs_div_den, abs_of_pos h1, abs_of_pos h2]
      exact h
    · exact Int.natAbs_pos.mpr (Rat.num_ne_zero.mpr h1.ne')
    · exact Int.natAbs_pos.mpr (Rat.num_ne_zero.mpr h2.ne')

/-! ## Arithmetic of the two instances -/

@[simp] theorem real_add (a b : ℝ) :
    @HAdd.hAdd ℝ ℝ ℝ (@instHAdd ℝ (@instAddJSNum ℝ instJSNumReal)) a b = a + b := rfl

@[simp] theorem real_sub (a b : ℝ) :
    @HSub.hSub ℝ ℝ ℝ (@instHSub ℝ (@instSubJSNum ℝ instJSNumReal)) a b = a - b := rfl

@[simp] theorem real_mul (a b : ℝ) :
    @HMul.hMul ℝ ℝ ℝ (@instHMul ℝ (@instMulJSNum ℝ instJSNumReal)) a b = a * b := rfl

@[simp] theorem real_div (a b : ℝ) :
    @HDiv.hDiv ℝ ℝ ℝ (@instHDiv ℝ (@instDivJSNum ℝ instJSNumReal)) a b = a / b := rfl

@[simp] theorem real_lit (q : ℚ) : (lit q : ℝ) = (q : ℝ) := rfl

@[simp] theorem real_PI : (PI : ℝ) = Real.pi := rfl

@[simp] theorem real_le (a b : ℝ) : (le a b = true) ↔ a ≤ b := by
  simp [le]

theorem x_real (A f φ t : ℝ) :
    x Real.cos A f φ t = A * Real.cos (2 * Real.pi * f * t + φ) := by
  simp [x, omega]

/-! ## The sampler loop -/

section Loop

variable {α : Type} [JSNum α]

/-- The table is the list of loop times, each mapped to its sample. -/
theorem dataLoop_eq_map (cos : α → α) (A om ph : α) :
    ∀ (fuel : Nat) (tau : α) (pts : List (Sample α)),
      dataLoop cos A om ph fuel tau pts =
        (loopTimes fuel tau).map
          (fun l => pts ++ l.map (fun u => ⟨toFixed2 u, A * cos (om * u + ph)⟩)) := by
  intro fuel
  induction fuel with
  | zero => intro tau pts; simp [dataLoop, loopTimes]
  | succ n ih =>
    intro tau pts
    by_cases h : le tau (totalT : α) = true
    · simp [dataLoop, loopTimes, h, ih, Option.map_map, Function.comp_def]
    · simp [dataLoop, loopTimes, h]

/-- More fuel does not change a run that finished. -/
theorem loopTimes_mono :
    ∀ (fuel : Nat) (tau : α) (l : List α), loopTimes fuel tau = some l →
      ∀ k, loopTimes (fuel + k) tau = some l := by
  intro fuel
  induction fuel with
  | zero => intro tau l h; simp [loopTimes] at h
  | succ n ih =>
    intro tau l h k
    rw [Nat.add_right_comm]
    by_cases hle : le tau (totalT : α) = true
    · simp only [loopTimes, hle, if_true] at h ⊢
      cases hrec : loopTimes n (tau + dt) with
      | none => simp [hrec] at h
      | some l1 =>
        rw [ih _ _ hrec k]
        rw [hrec] at h
        exact h
    · simp only [loopTimes, hle] at h ⊢
      exact h

end Loop

/-! ### The loop times in exact arithmetic -/

theorem loopTimes_real_aux :
    ∀ (n k fuel : Nat), n + k = 401 → n < fuel →
      loopTimes fuel ((k : ℝ) / 50)
        = some ((List.range' k n).map (fun i : ℕ => (i : ℝ) / 50)) := by
  intro n
  induction n with
  | zero =>
    intro k fuel hk hf
    obtain ⟨m, rfl⟩ : ∃ m, fuel = m + 1 := ⟨fuel - 1, by omega⟩
    have hk1 : k = 401 := by omega
    subst hk1
    have hgt : ¬ (le (((401 : ℕ) : ℝ) / 50) (totalT : ℝ) = true) := by
      rw [real_le]
      simp only [totalT, real_lit]
      norm_num
    simp only [loopTimes]
    rw [if_neg hgt]
    rfl
  | succ n ih =>
    intro k fuel hk hf
    obtain ⟨m, rfl⟩ : ∃ m, fuel = m + 1 := ⟨fuel - 1, by omega⟩
    have hle : le ((k : ℝ) / 50) (totalT : ℝ) = true := by
      rw [real_le]
      simp only [totalT, real_lit]
      have : (k : ℝ) ≤ 400 := by exact_mod_cast (by omega : k ≤ 400)
      norm_num
      linarith
    have hstep : ((k : ℝ) / 50) + (dt : ℝ) = ((k + 1 : ℕ) : ℝ) / 50 := by
      simp [dt]
      norm_num
      ring
    simp only [loopTimes, hle, if_true, hstep]
    rw [ih (k + 1) m (by omega) (by omega)]
    simp [List.range'_succ]

theorem loopTimes_real (fuel : Nat) (hfuel : 402 ≤ fuel) :
    loopTimes fuel (lit 0 : ℝ) = some ((List.range 401).map (fun i : ℕ => (i : ℝ) / 50)) := by
  have h := loopTimes_real_aux 401 0 fuel (by omega) (by omega)
  simp only [Nat.cast_zero, zero_div] at h
  rw [List.range_eq_range']
  simpa using h

/-! ### The loop times in binary64

The loop is evaluated in four segments of 100 iterations and a last one of a single
iteration; the values of `tau` at the seams are written out. -/

section Segments

variable {α : Type} [JSNum α]

/-- A segment followed by the rest of the loop. -/
theorem loopTimes_segment :
    ∀ (n : Nat) (tau u : α) (l : List α), loopSegment n tau = some (l, u) →
      ∀ fuel, loopTimes (n + fuel) tau = (loopTimes fuel u).map (fun r => l ++ r) := by
  intro n
  induction n with
  | zero =>
    intro tau u l h fuel
    simp only [loopSegment, Option.some.injEq, Prod.mk.injEq] at h
    obtain ⟨rfl, rfl⟩ := h
    simp
  | succ n ih =>
    intro tau u l h fuel
    rw [Nat.add_right_comm]
    by_cases hle : le tau (totalT : α) = true
    · simp only [loopSegment, hle, if_true] at h
      cases hseg : loopSegment n (tau + dt) with
      | none => simp [hseg] at h
      | some p =>
        obtain ⟨l1, u1⟩ := p
        simp only [hseg, Option.map_some', Option.some.injEq, Prod.mk.injEq] at h
        obtain ⟨rfl, rfl⟩ := h
        simp only [loopTimes, hle, if_true, ih _ _ _ hseg fuel, Option.map_map]
        rfl
    · simp [loopSegment, hle] at h

/-- A segment with its times mapped, as it is evaluated below. -/
theorem loopSegment_of_check (f : α → α) (n : Nat) (tau u : α) (expected : List α)
    (h : (loopSegment n tau).map (fun p => (p.1.map f, p.2)) = some (expected, u)) :
    ∃ l, loopSegment n tau = some (l, u) ∧ l.map f = expected := by
  cases hseg : loopSegment n tau with
  | none => simp [hseg] at h
  | some p =>
    obtain ⟨l, u1⟩ := p
    simp only [hseg, Option.map_some', Option.some.injEq, Prod.mk.injEq] at h
    exact ⟨l, by rw [h.2], h.1⟩

end Segments

theorem f64_segment_0 :
    (loopSegment 100 (⟨0⟩ : F64)).map (fun p => (p.1.map toFixed2, p.2))
      = some ((List.range' 0 100).map (fun i : ℕ => (lit ((i : ℚ) / 50) : F64)),
          ⟨4503599627370499 / 2251799813685248⟩) := by
  decide!

theorem f64_segment_100 :
    (loopSegment 100 (⟨4503599627370499 / 2251799813685248⟩ : F64)).map
        (fun p => (p.1.map toFixed2, p.2))
      = some ((List.range' 100 100).map (fun i : ℕ => (lit ((i : ℚ) / 50) : F64)),
          ⟨4503599627370499 / 1125899906842624⟩) := by
  decide!

theorem f64_segment_200 :
    (loopSegment 100 (⟨4503599627370499 / 1125899906842624⟩ : F64)).map
        (fun p => (p.1.map toFixed2, p.2))
      = some ((List.range' 200 100).map (fun i : ℕ => (lit ((i : ℚ) / 50) : F64)),
          ⟨6755399441055699 / 1125899906842624⟩) := by
  decide!

theorem f64_segment_300 :
    (loopSegment 100 (⟨6755399441055699 / 1125899906842624⟩ : F64)).map
        (fun p => (p.1.map toFixed2, p.2))
      = some ((List.range' 300 100).map (fun i : ℕ => (lit ((i : ℚ) / 50) : F64)),
          ⟨9007199254740899 / 1125899906842624⟩) := by
  decide!

theorem f64_segment_400 :
    (loopSegment 1 (⟨9007199254740899 / 1125899906842624⟩ : F64)).map
        (fun p => (p.1.map toFixed2, p.2))
      = some ((List.range' 400 1).map (fun i : ℕ => (lit ((i : ℚ) / 50) : F64)),
          ⟨1128714656609719 / 140737488355328⟩)
      ∧ le (⟨1128714656609719 / 140737488355328⟩ : F64) totalT = false
      ∧ (lit 0 : F64) = ⟨0⟩ := by
  decide!

/-- The loop in binary64: 401 iterations, and the two-decimals readings of its times. -/
theorem loopTimes_f64 :
    ∃ l : List F64, loopTimes 402 (lit 0 : F64) = some l
      ∧ l.map toFixed2 = (List.range 401).map (fun i : ℕ => (lit ((i : ℚ) / 50) : F64)) := by
  obtain ⟨l0, h0, e0⟩ := loopSegment_of_check _ _ _ _ _ f64_segment_0
  obtain ⟨l1, h1, e1⟩ := loopSegment_of_check _ _ _ _ _ f64_segment_100
  obtain ⟨l2, h2, e2⟩ := loopSegment_of_check _ _ _ _ _ f64_segment_200
  obtain ⟨l3, h3, e3⟩ := loopSegment_of_check _ _ _ _ _ f64_segment_300
  obtain ⟨l4, h4, e4⟩ := loopSegment_of_check _ _ _ _ _ f64_segment_400.1
  have hend : loopTimes 1 (⟨1128714656609719 / 140737488355328⟩ : F64) = some [] := by
    simp [loopTimes, f64_segment_400.2.1]
  refine ⟨l0 ++ (l1 ++ (l2 ++ (l3 ++ (l4 ++ [])))), ?_, ?_⟩
  · rw [f64_segment_400.2.2, show 402 = 100 + (100 + (100 + (100 + (1 + 1)))) from rfl,
      loopTimes_segment _ _ _ _ h0, loopTimes_segment _ _ _ _ h1,
      loopTimes_segment _ _ _ _ h2, loopTimes_segment _ _ _ _ h3,
      loopTimes_segment _ _ _ _ h4, hend]
    rfl
  · simp only [List.map_append, List.map_nil, List.append_nil, e0, e1, e2, e3, e4]
    have r3 := List.range'_append_1 300 100 1
    have r2 := List.range'_append_1 200 100 101
    have r1 := List.range'_append_1 100 100 201
    have r0 := List.range'_append_1 0 100 301
    simp only [Nat.reduceAdd] at r0 r1 r2 r3
    rw [List.range_eq_range', ← r0, ← r1, ← r2, ← r3]
    simp only [List.map_append]

theorem f64_adjacent_check_0 :
    (List.range' 0 100).all (fun i : ℕ =>
        decide ((lit ((i : ℚ) / 50) : F64).val < (lit (((i + 1 : ℕ) : ℚ) / 50) : F64).val)
        && decide (toFixed2 ((lit (i : ℚ) : F64) * lit 0.02) = lit ((i : ℚ) / 50)))
      = true := by
  decide!

theorem f64_adjacent_check_100 :
    (List.range' 100 100).all (fun i : ℕ =>
        decide ((lit ((i : ℚ) / 50) : F64).val < (lit (((i + 1 : ℕ) : ℚ) / 50) : F64).val)
        && decide (toFixed2 ((lit (i : ℚ) : F64) * lit 0.02) = lit ((i : ℚ) / 50)))
      = true := by
  decide!

theorem f64_adjacent_check_200 :
    (List.range' 200 100).all (fun i : ℕ =>
        decide ((lit ((i : ℚ) / 50) : F64).val < (lit (((i + 1 : ℕ) : ℚ) / 50) : F64).val)
        && decide (toFixed2 ((lit (i : ℚ) : F64) * lit 0.02) = lit ((i : ℚ) / 50)))
      = true := by
  decide!

theorem f64_adjacent_check_300 :
    (List.range' 300 101).all (fun i : ℕ =>
        decide ((lit ((i : ℚ) / 50) : F64).val < (lit (((i + 1 : ℕ) : ℚ) / 50) : F64).val)
        && decide (toFixed2 ((lit (i : ℚ) : F64) * lit 0.02) = lit ((i : ℚ) / 50)))
      = true := by
  decide!

/-- For every index of the table: the next two-decimals numeral is a larger double, and
`+(i * 0.02).toFixed(2)` is the double of the numeral `i / 50`. -/
theorem f64_index_check (i : ℕ) (hi : i ≤ 400) :
    (lit ((i : ℚ) / 50) : F64).val < (lit (((i + 1 : ℕ) : ℚ) / 50) : F64).val
      ∧ toFixed2 ((lit (i : ℚ) : F64) * lit 0.02) = lit ((i : ℚ) / 50) := by
  have key : ∀ a n : ℕ, (List.range' a n).all (fun i : ℕ =>
        decide ((lit ((i : ℚ) / 50) : F64).val < (lit (((i + 1 : ℕ) : ℚ) / 50) : F64).val)
        && decide (toFixed2 ((lit (i : ℚ) : F64) * lit 0.02) = lit ((i : ℚ) / 50)))
      = true → a ≤ i → i < a + n →
      (lit ((i : ℚ) / 50) : F64).val < (lit (((i + 1 : ℕ) : ℚ) / 50) : F64).val
        ∧ toFixed2 ((lit (i : ℚ) : F64) * lit 0.02) = lit ((i : ℚ) / 50) := by
    intro a n h ha hn
    rw [List.all_eq_true] at h
    have := h i (by rw [List.mem_range'_1]; exact ⟨ha, hn⟩)
    simpa using this
  by_cases h1 : i < 100
  · exact key 0 100 f64_adjacent_check_0 (by omega) (by omega)
  by_cases h2 : i < 200
  · exact key 100 100 f64_adjacent_check_100 (by omega) (by omega)
  by_cases h3 : i < 300
  · exact key 200 100 f64_adjacent_check_200 (by omega) (by omega)
  · exact key 300 101 f64_adjacent_check_300 (by omega) (by omega)

theorem f64_ascending (i j : ℕ) (hij : i < j) (hj : j ≤ 400) :
    (lit ((i : ℚ) / 50) : F64).val < (lit ((j : ℚ) / 50) : F64).val := by
  have hadj : ∀ k : ℕ, k < 400 →
      (lit ((k : ℚ) / 50) : F64).val < (lit (((k + 1 : ℕ) : ℚ) / 50) : F64).val := by
    intro k hk
    exact (f64_index_check k (by omega)).1
  induction j with
  | zero => omega
  | succ n ih =>
    rcases Nat.lt_succ_iff_lt_or_eq.mp hij with h | h
    · exact lt_trans (ih h (by omega)) (hadj n (by omega))
    · subst h
      exact hadj i (by omega)

/-! ### The tables of the two instances -/

theorem f64Times_spec :
    loopTimes 402 (lit 0 : F64) = some f64Times
      ∧ f64Times.map toFixed2 = (List.range 401).map (fun i : ℕ => (lit ((i : ℚ) / 50) : F64))
      ∧ f64Times.map toFixed2
          = (List.range 401).map (fun i : ℕ => toFixed2 ((lit (i : ℚ) : F64) * lit 0.02)) := by
  obtain ⟨l, hl, he⟩ := loopTimes_f64
  have hdef : f64Times = l := by simp [f64Times, hl]
  rw [hdef]
  refine ⟨hl, he, ?_⟩
  rw [he]
  apply List.map_congr_left
  intro i hi
  exact (f64_index_check i (by have := List.mem_range.mp hi; omega)).2.symm

theorem f64Times_length : f64Times.length = 401 := by
  have h := congrArg List.length f64Times_spec.2.1
  simpa using h

theorem data_f64 (cos : F64 → F64) (fuel : Nat) (hfuel : 402 ≤ fuel) (A f φ : F64) :
    data cos fuel A f φ
      = some (f64Times.map (fun u => ⟨toFixed2 u, A * cos (omega f * u + φ)⟩)) := by
  obtain ⟨k, rfl⟩ : ∃ k, fuel = 402 + k := ⟨fuel - 402, by omega⟩
  unfold data
  rw [dataLoop_eq_map, loopTimes_mono 402 _ _ f64Times_spec.1 k]
  simp

theorem data_real (cos : ℝ → ℝ) (fuel : Nat) (hfuel : 402 ≤ fuel) (A f φ : ℝ) :
    data cos fuel A f φ
      = some (((List.range 401).map (fun i : ℕ => (i : ℝ) / 50)).map
          (fun u => ⟨toFixed2 u, A * cos (omega f * u + φ)⟩)) := by
  unfold data
  rw [dataLoop_eq_map, loopTimes_real fuel hfuel]
  simp

/-! ## The transition system -/

section Machine

variable {α : Type} [JSNum α] (cos : α → α) (fuel : Nat)

theorem render_coherent (hsame : ∀ a b : α, same a b = true ↔ a = b) (s : State α)
    (h : Coherent cos fuel s) : render cos fuel s = some s := by
  obtain ⟨pts, hd, -⟩ := h
  have h1 := (hsame s.amplitude s.amplitude).mpr rfl
  have h2 := (hsame s.frequency s.frequency).mpr rfl
  have h3 := (hsame s.phase s.phase).mpr rfl
  simp [render, depsUnchanged, hd, h1, h2, h3]

theorem render_stale (hsame : ∀ a b : α, same a b = true ↔ a = b) (s : State α)
    (pts : List (Sample α))
    (hstale : ∀ m, s.data = some m → m.deps ≠ (s.amplitude, s.frequency, s.phase))
    (hd : data cos fuel s.amplitude s.frequency s.phase = some pts) :
    render cos fuel s
      = some { s with data := some ⟨(s.amplitude, s.frequency, s.phase), pts⟩,
                      regenerations := s.regenerations + 1 } := by
  have hun : depsUnchanged s = false := by
    unfold depsUnchanged
    cases hm : s.data with
    | none => rfl
    | some m =>
      have hne := hstale m hm
      simp only
      by_contra hc
      simp only [Bool.not_eq_false, Bool.and_eq_true, hsame] at hc
      apply hne
      obtain ⟨⟨a, b⟩, c⟩ := hc
      rw [← a, ← b, ← c]
  simp only [render, hun, hd]
  simp

/-- Every render succeeds when the factory does and keeps everything but the cell and
the counter. -/
theorem render_total (hdata : ∀ A f φ : α, ∃ pts, data cos fuel A f φ = some pts)
    (s : State α) :
    ∃ s1, render cos fuel s = some s1
      ∧ s1.amplitude = s.amplitude ∧ s1.frequency = s.frequency ∧ s1.phase = s.phase
      ∧ s1.t = s.t ∧ s1.start = s.start ∧ s1.frame = s.frame
      ∧ s1.callbacks = s.callbacks ∧ s1.handle = s.handle := by
  obtain ⟨pts, hd⟩ := hdata s.amplitude s.frequency s.phase
  unfold render
  by_cases hun : depsUnchanged s = true
  · rw [if_pos hun]
    exact ⟨s, rfl, rfl, rfl, rfl, rfl, rfl, rfl, rfl, rfl⟩
  · rw [if_neg hun, hd]
    exact ⟨_, rfl, rfl, rfl, rfl, rfl, rfl, rfl, rfl, rfl⟩

/-- A render of a state whose cell is sound leaves the cell coherent. -/
theorem render_spec (hsame : ∀ a b : α, same a b = true ↔ a = b)
    (hdata : ∀ A f φ : α, ∃ pts, data cos fuel A f φ = some pts) (s : State α)
    (hcell : CellOk cos fuel s) :
    ∃ s1, render cos fuel s = some s1 ∧ Coherent cos fuel s1
      ∧ s1.amplitude = s.amplitude ∧ s1.frequency = s.frequency ∧ s1.phase = s.phase
      ∧ s1.t = s.t ∧ s1.start = s.start ∧ s1.frame = s.frame
      ∧ s1.callbacks = s.callbacks ∧ s1.handle = s.handle := by
  obtain ⟨pts, hd⟩ := hdata s.amplitude s.frequency s.phase
  by_cases hst : ∀ m, s.data = some m → m.deps ≠ (s.amplitude, s.frequency, s.phase)
  · refine ⟨_, render_stale cos fuel hsame s pts hst hd, ⟨pts, rfl, hd⟩, ?_⟩
    simp
  · push_neg at hst
    obtain ⟨m, hm, hdeps⟩ := hst
    have hco : Coherent cos fuel s := by
      refine ⟨m.value, ?_, ?_⟩
      · rw [hm, ← hdeps]
      · have h := hcell m hm
        rw [hdeps] at h
        exact h
    exact ⟨s, render_coherent cos fuel hsame s hco, hco, rfl, rfl, rfl, rfl, rfl, rfl, rfl, rfl⟩

theorem Coherent.cellOk {s : State α} (h : Coherent cos fuel s) : CellOk cos fuel s := by
  obtain ⟨pts, hd, hp⟩ := h
  intro m hm
  rw [hd] at hm
  cases hm
  exact hp

end Machine

section Steps

variable {α : Type} [JSNum α] (cos : α → α) (fuel : Nat)

theorem runCallbacks_live (now : α) (s : State α) (h : s.callbacks = [s.frame]) :
    runCallbacks now s
      = { s with t := (now - s.start) / lit 1000, handle := s.handle + 1,
                 callbacks := [s.handle + 1], frame := s.handle + 1 } := by
  simp [runCallbacks, h, loop, requestAnimationFrame]

theorem runCallbacks_idle (now : α) (s : State α) (h : s.callbacks = []) :
    runCallbacks now s = s := by
  simp [runCallbacks, h]

/-- Running the frame callbacks touches neither the parameters, nor the cell, nor `start`. -/
theorem runCallbacks_keeps (now : α) (s : State α) :
    (runCallbacks now s).amplitude = s.amplitude
      ∧ (runCallbacks now s).frequency = s.frequency
      ∧ (runCallbacks now s).phase = s.phase
      ∧ (runCallbacks now s).data = s.data
      ∧ (runCallbacks now s).start = s.start
      ∧ (runCallbacks now s).regenerations = s.regenerations := by
  unfold runCallbacks
  generalize s.callbacks = l
  induction l generalizing s with
  | nil => simp
  | cons h l ih =>
    simp only [List.foldl_cons]
    split
    · obtain ⟨h1, h2, h3, h4, h5, h6⟩ :=
        ih (loop now { s with callbacks := s.callbacks.filter (fun k => k != h) })
      exact ⟨h1, h2, h3, h4, h5, h6⟩
    · exact ih s

theorem coherent_congr {s s1 : State α} (h : Coherent cos fuel s)
    (ha : s1.amplitude = s.amplitude) (hf : s1.frequency = s.frequency)
    (hp : s1.phase = s.phase) (hd : s1.data = s.data) : Coherent cos fuel s1 := by
  obtain ⟨pts, h1, h2⟩ := h
  exact ⟨pts, by rw [hd, ha, hf, hp, h1], by rw [ha, hf, hp, h2]⟩

/-- An animation frame in a coherent state only runs the callbacks: the render that
follows returns the stored table. -/
theorem step_frame (hsame : ∀ a b : α, same a b = true ↔ a = b) (s : State α)
    (hco : Coherent cos fuel s) (now : α) :
    step cos fuel s (Event.animationFrame now) = some (runCallbacks now s) := by
  obtain ⟨h1, h2, h3, h4, -, -⟩ := runCallbacks_keeps now s
  exact render_coherent cos fuel hsame _ (coherent_congr cos fuel hco h1 h2 h3 h4)

/-- The invariant of the transition system: the cell is coherent and the only handle
that can be in the map of the browser is `frame`. -/
theorem step_inv (hsame : ∀ a b : α, same a b = true ↔ a = b)
    (hdata : ∀ A f φ : α, ∃ pts, data cos fuel A f φ = some pts) (s : State α)
    (hco : Coherent cos fuel s) (hcb : s.callbacks = [s.frame] ∨ s.callbacks = [])
    (e : Event α) :
    ∃ s1, step cos fuel s e = some s1 ∧ Coherent cos fuel s1
      ∧ (s1.callbacks = [s1.frame] ∨ s1.callbacks = []) ∧ s1.start = s.start := by
  cases e with
  | animationFrame now =>
    refine ⟨_, step_frame cos fuel hsame s hco now, ?_, ?_, ?_⟩
    · obtain ⟨h1, h2, h3, h4, -, -⟩ := runCallbacks_keeps now s
      exact coherent_congr cos fuel hco h1 h2 h3 h4
    · rcases hcb with h | h
      · left; rw [runCallbacks_live now s h]
      · right; rw [runCallbacks_idle now s h]; exact h
    · exact (runCallbacks_keeps now s).2.2.2.2.1
  | changeAmplitude v =>
    obtain ⟨s1, hr, hc1, -, -, -, -, hst, hfr, hcbs, -⟩ :=
      render_spec cos fuel hsame hdata { s with amplitude := v }
        (fun m hm => (Coherent.cellOk cos fuel hco) m hm)
    exact ⟨s1, hr, hc1, by rw [hcbs, hfr]; exact hcb, hst⟩
  | changeFrequency v =>
    obtain ⟨s1, hr, hc1, -, -, -, -, hst, hfr, hcbs, -⟩ :=
      render_spec cos fuel hsame hdata { s with frequency := v }
        (fun m hm => (Coherent.cellOk cos fuel hco) m hm)
    exact ⟨s1, hr, hc1, by rw [hcbs, hfr]; exact hcb, hst⟩
  | changePhase v =>
    obtain ⟨s1, hr, hc1, -, -, -, -, hst, hfr, hcbs, -⟩ :=
      render_spec cos fuel hsame hdata { s with phase := v }
        (fun m hm => (Coherent.cellOk cos fuel hco) m hm)
    exact ⟨s1, hr, hc1, by rw [hcbs, hfr]; exact hcb, hst⟩
  | unmount =>
    refine ⟨_, rfl, coherent_congr cos fuel hco rfl rfl rfl rfl, ?_, rfl⟩
    right
    rcases hcb with h | h <;> simp [cancelAnimationFrame, h]

theorem run_inv (hsame : ∀ a b : α, same a b = true ↔ a = b)
    (hdata : ∀ A f φ : α, ∃ pts, data cos fuel A f φ = some pts) (events : List (Event α)) :
    ∀ s : State α, Coherent cos fuel s → (s.callbacks = [s.frame] ∨ s.callbacks = []) →
      ∃ s1, run cos fuel s events = some s1 ∧ Coherent cos fuel s1
        ∧ (s1.callbacks = [s1.frame] ∨ s1.callbacks = []) ∧ s1.start = s.start := by
  induction events with
  | nil => intro s hco hcb; exact ⟨s, rfl, hco, hcb, rfl⟩
  | cons e es ih =>
    intro s hco hcb
    obtain ⟨s1, hs1, hco1, hcb1, hst1⟩ := step_inv cos fuel hsame hdata s hco hcb e
    obtain ⟨s2, hs2, hco2, hcb2, hst2⟩ := ih s1 hco1 hcb1
    exact ⟨s2, by simp [run, hs1, hs2], hco2, hcb2, by rw [hst2, hst1]⟩

/-- Mounting renders the table of the initial parameters once and schedules one frame. -/
theorem mount_spec (hdata : ∀ A f φ : α, ∃ pts, data cos fuel A f φ = some pts)
    (now : α) (handle : Nat) :
    ∃ s, mount cos fuel now handle = some s ∧ Coherent cos fuel s
      ∧ s.callbacks = [s.frame] ∧ s.start = now ∧ s.t = lit 0
      ∧ s.amplitude = lit 120 ∧ s.frequency = lit 0.5 ∧ s.phase = lit 0
      ∧ s.regenerations = 1 := by
  obtain ⟨pts, hd⟩ := hdata (lit 120) (lit 0.5) (lit 0)
  refine ⟨{ amplitude := lit 120, frequency := lit 0.5, phase := lit 0, t := lit 0,
             data := some ⟨(lit 120, lit 0.5, lit 0), pts⟩, start := now,
             frame := handle + 1, callbacks := [handle + 1], handle := handle + 1,
             regenerations := 1 }, ?_, ⟨pts, rfl, hd⟩, rfl, rfl, rfl, rfl, rfl, rfl, rfl⟩
  simp [mount, render, depsUnchanged, hd, effect, requestAnimationFrame]

theorem reach_inv (hsame : ∀ a b : α, same a b = true ↔ a = b)
    (hdata : ∀ A f φ : α, ∃ pts, data cos fuel A f φ = some pts)
    (now : α) (handle : Nat) (events : List (Event α)) :
    ∃ s, reach cos fuel now handle events = some s ∧ Coherent cos fuel s
      ∧ (s.callbacks = [s.frame] ∨ s.callbacks = []) ∧ s.start = now := by
  obtain ⟨s0, hm, hco, hcb, hst, -⟩ := mount_spec cos fuel hdata now handle
  obtain ⟨s1, hr, hco1, hcb1, hst1⟩ := run_inv cos fuel hsame hdata events s0 hco (Or.inl hcb)
  exact ⟨s1, by simp [reach, hm, hr], hco1, hcb1, by rw [hst1, hst]⟩

end Steps

theorem same_f64 (a b : F64) : same a b = true ↔ a = b := by
  simp [same]

theorem same_real (a b : ℝ) : same a b = true ↔ a = b := by
  simp [same]

theorem hdata_f64 (cos : F64 → F64) (fuel : Nat) (hfuel : 402 ≤ fuel) (A f φ : F64) :
    ∃ pts, data cos fuel A f φ = some pts :=
  ⟨_, data_f64 cos fuel hfuel A f φ⟩

theorem hdata_real (cos : ℝ → ℝ) (fuel : Nat) (hfuel : 402 ≤ fuel) (A f φ : ℝ) :
    ∃ pts, data cos fuel A f φ = some pts :=
  ⟨_, data_real cos fuel hfuel A f φ⟩

/-! ## Position -/

theorem f64_position_args :
    omega (lit 0.5 : F64) * lit 0 + lit 0 = ⟨0⟩
      ∧ omega (lit 0.5 : F64) * lit 1 + lit 0 = PI
      ∧ (lit 120 : F64) * ⟨1⟩ = ⟨120⟩ ∧ (lit 120 : F64) * ⟨-1⟩ = ⟨-120⟩ := by
  decide!

/-- C1: the position computed by the component, `amplitude * Math.cos(omega * t + phase)`
with `omega = 2 * Math.PI * frequency`, is `A * cos(2 * pi * f * t + phi)`: as the same
expression in any arithmetic, binary64 included, and as the real number of that formula
in exact arithmetic, also when read from a state. With `A = 120`, `f = 0.5`, `phi = 0`
it is `120` at `t = 0` and `-120` at `t = 1`: in exact arithmetic, and in binary64 for
every `Math.cos` that returns `1` at `0` and `-1` at `Math.PI`, which are then its
arguments. -/
theorem position_closed_form :
    (∀ (α : Type) [JSNum α] (cos : α → α) (A f φ t : α),
        x cos A f φ t = A * cos (lit 2 * PI * f * t + φ))
      ∧ (∀ A f φ t : ℝ, x Real.cos A f φ t = A * Real.cos (2 * Real.pi * f * t + φ))
      ∧ (∀ s : State ℝ, position Real.cos s
          = s.amplitude * Real.cos (2 * Real.pi * s.frequency * s.t + s.phase))
      ∧ x Real.cos (120 : ℝ) 0.5 0 0 = 120
      ∧ x Real.cos (120 : ℝ) 0.5 0 1 = -120
      ∧ (∀ cos : F64 → F64, cos ⟨0⟩ = ⟨1⟩ → cos PI = ⟨-1⟩ →
          (x cos (lit 120) (lit 0.5) (lit 0) (lit 0)).val = 120
          ∧ (x cos (lit 120) (lit 0.5) (lit 0) (lit 1)).val = -120) := by
  refine ⟨fun α _ cos A f φ t => rfl, x_real, fun s => x_real _ _ _ _, ?_, ?_, ?_⟩
  · rw [x_real]
    norm_num
  · rw [x_real]
    have h : 2 * Real.pi * 0.5 * 1 + 0 = Real.pi := by ring
    rw [h, Real.cos_pi]
    norm_num
  · intro cos h0 hpi
    obtain ⟨a0, a1, m0, m1⟩ := f64_position_args
    constructor
    · show ((lit 120 : F64) * cos (omega (lit 0.5) * lit 0 + lit 0)).val = 120
      rw [a0, h0, m0]
    · show ((lit 120 : F64) * cos (omega (lit 0.5) * lit 1 + lit 0)).val = -120
      rw [a1, hpi, m1]

theorem position_closed_form_witness :
    (fun y : F64 => if y = ⟨0⟩ then (⟨1⟩ : F64) else ⟨-1⟩) ⟨0⟩ = ⟨1⟩
      ∧ (fun y : F64 => if y = ⟨0⟩ then (⟨1⟩ : F64) else ⟨-1⟩) PI = ⟨-1⟩
      ∧ (x (fun y : F64 => if y = ⟨0⟩ then (⟨1⟩ : F64) else ⟨-1⟩)
            (lit 120) (lit 0.5) (lit 0) (lit 0)).val = 120
      ∧ (x (fun y : F64 => if y = ⟨0⟩ then (⟨1⟩ : F64) else ⟨-1⟩)
            (lit 120) (lit 0.5) (lit 0) (lit 1)).val = -120 := by
  have h0 : (fun y : F64 => if y = ⟨0⟩ then (⟨1⟩ : F64) else ⟨-1⟩) ⟨0⟩ = ⟨1⟩ := by
    decide!
  have hpi : (fun y : F64 => if y = ⟨0⟩ then (⟨1⟩ : F64) else ⟨-1⟩) PI = ⟨-1⟩ := by
    decide!
  have h := position_closed_form.2.2.2.2.2
    (fun y : F64 => if y = ⟨0⟩ then (⟨1⟩ : F64) else ⟨-1⟩) h0 hpi
  exact ⟨h0, hpi, h.1, h.2⟩

/-! ## Shape and contents of the table -/

theorem f64_lit_zero : (lit 0 : F64).val = 0 := by
  decide!

theorem f64_lit_eight : (lit ((400 : ℕ) / 50 : ℚ) : F64).val = 8 := by
  decide!

/-- Shape of the binary64 table, shared by the statements below. -/
theorem f64_table (cos : F64 → F64) (amplitude frequency phase : F64) (fuel : Nat)
    (hfuel : 402 ≤ fuel) :
    ∃ pts, data cos fuel amplitude frequency phase = some pts
      ∧ pts.length = 401
      ∧ pts.map Sample.t
          = (List.range 401).map (fun i : ℕ => toFixed2 ((lit (i : ℚ) : F64) * lit 0.02))
      ∧ pts.map Sample.t = (List.range 401).map (fun i : ℕ => (lit ((i : ℚ) / 50) : F64))
      ∧ pts.Pairwise (fun a b => a.t.val < b.t.val)
      ∧ (pts.head?.map (fun p => p.t.val)) = some 0
      ∧ (pts.getLast?.map (fun p => p.t.val)) = some 8 := by
  have ht : (f64Times.map
        (fun u =>
          (⟨toFixed2 u, amplitude * cos (omega frequency * u + phase)⟩ : Sample F64))).map
        Sample.t = f64Times.map toFixed2 := by
    simp [List.map_map, Function.comp_def]
  have h50 := f64Times_spec.2.1
  refine ⟨_, data_f64 cos fuel hfuel amplitude frequency phase, ?_, ?_, ?_, ?_, ?_, ?_⟩
  · simp [f64Times_length]
  · rw [ht]; exact f64Times_spec.2.2
  · rw [ht]; exact h50
  · have hp : (f64Times.map toFixed2).Pairwise (fun a b : F64 => a.val < b.val) := by
      rw [h50, List.pairwise_map]
      refine List.Pairwise.imp_of_mem ?_ (List.pairwise_lt_range 401)
      intro i j _ hj hij
      exact f64_ascending i j hij (by have := List.mem_range.mp hj; omega)
    rw [← ht, List.pairwise_map] at hp
    exact hp
  · have h1 : ((f64Times.map toFixed2).head?).map F64.val = some 0 := by
      rw [h50, show (401 : ℕ) = 400 + 1 from rfl, List.range_succ_eq_map]
      simp only [List.map_cons, List.head?_cons, Option.map_some']
      rw [← f64_lit_zero]
      norm_num
    rw [← ht] at h1
    simpa [List.head?_map, Option.map_map, Function.comp_def] using h1
  · have h1 : ((f64Times.map toFixed2).getLast?).map F64.val = some 8 := by
      rw [h50, show (401 : ℕ) = 400 + 1 from rfl, List.range_succ]
      simp only [List.map_append, List.map_cons, List.map_nil, List.getLast?_append,
        List.getLast?_singleton]
      change some (lit (((400 : ℕ) : ℚ) / 50) : F64).val = some 8
      rw [f64_lit_eight]
    rw [← ht] at h1
    simpa [List.getLast?_map, Option.map_map, Function.comp_def] using h1

/-- C2: in binary64, for every `Math.cos`, amplitude, frequency and phase, and with fuel
for the 402 loop tests, the sampler returns a table of exactly 401 samples; the `t` of
sample `i` is `+(i * 0.02).toFixed(2)`, which is the double of the two-decimals numeral
`i / 50`; the `t` values are strictly ascending, the first is `0` and the last is `8`. -/
theorem table_shape (cos : F64 → F64) (amplitude frequency phase : F64) (fuel : Nat)
    (hfuel : 402 ≤ fuel) :
    ∃ pts, data cos fuel amplitude frequency phase = some pts
      ∧ pts.length = 401
      ∧ pts.map Sample.t
          = (List.range 401).map (fun i : ℕ => toFixed2 ((lit (i : ℚ) : F64) * lit 0.02))
      ∧ pts.map Sample.t = (List.range 401).map (fun i : ℕ => (lit ((i : ℚ) / 50) : F64))
      ∧ pts.Pairwise (fun a b => a.t.val < b.t.val)
      ∧ (pts.head?.map (fun p => p.t.val)) = some 0
      ∧ (pts.getLast?.map (fun p => p.t.val)) = some 8 := by
  exact f64_table cos amplitude frequency phase fuel hfuel

theorem real_toFixed2 (i : ℕ) : toFixed2 ((i : ℝ) / 50) = (i : ℝ) / 50 := by
  have h0 : (0 : ℝ) ≤ (i : ℝ) / 50 := by positivity
  have hfloor : Int.floor (100 * |(i : ℝ) / 50| + 1 / 2) = 2 * (i : ℤ) := by
    rw [abs_of_nonneg h0, Int.floor_eq_iff]
    push_cast
    constructor <;> linarith
  show (if 0 ≤ (i : ℝ) / 50 then (Int.floor (100 * |(i : ℝ) / 50| + 1 / 2) : ℝ) / 100
    else -((Int.floor (100 * |(i : ℝ) / 50| + 1 / 2) : ℝ) / 100)) = _
  rw [if_pos h0, hfloor]
  push_cast
  ring

/-- C3: every sample is built at a loop time `tau` as `{ t: +tau.toFixed(2), x }` with
`x` the position formula at `tau` for the current parameters, the value `x` that the
clock computes at elapsed time `tau`. In binary64, for every `Math.cos`, the table is
the list of the 401 loop times mapped this way; in exact arithmetic the loop times are
`i / 50`, they are their own two-decimals readings, and `x` is
`A * cos(2 * pi * f * tau + phi)`. -/
theorem sample_contents (fuel : Nat) (hfuel : 402 ≤ fuel) :
    (∀ (cos : F64 → F64) (A f φ : F64),
        ∃ times : List F64, loopTimes fuel (lit 0) = some times ∧ times.length = 401
          ∧ data cos fuel A f φ = some (times.map (fun tau =>
              ⟨toFixed2 tau, A * cos (lit 2 * PI * f * tau + φ)⟩))
          ∧ data cos fuel A f φ = some (times.map (fun tau =>
              ⟨toFixed2 tau, x cos A f φ tau⟩)))
      ∧ (∀ A f φ : ℝ,
          loopTimes fuel (lit 0 : ℝ) = some ((List.range 401).map (fun i : ℕ => (i : ℝ) / 50))
          ∧ data Real.cos fuel A f φ = some ((List.range 401).map (fun i : ℕ =>
              ⟨toFixed2 ((i : ℝ) / 50),
                A * Real.cos (2 * Real.pi * f * ((i : ℝ) / 50) + φ)⟩))
          ∧ data Real.cos fuel A f φ = some ((List.range 401).map (fun i : ℕ =>
              ⟨toFixed2 ((i : ℝ) / 50), x Real.cos A f φ ((i : ℝ) / 50)⟩))
          ∧ ∀ i : ℕ, toFixed2 ((i : ℝ) / 50) = (i : ℝ) / 50) := by
  constructor
  · intro cos A f φ
    obtain ⟨k, rfl⟩ : ∃ k, fuel = 402 + k := ⟨fuel - 402, by omega⟩
    exact ⟨f64Times, loopTimes_mono 402 _ _ f64Times_spec.1 k, f64Times_length,
      data_f64 cos _ hfuel A f φ, data_f64 cos _ hfuel A f φ⟩
  · intro A f φ
    refine ⟨loopTimes_real fuel hfuel, ?_, ?_, real_toFixed2⟩
    · rw [data_real Real.cos fuel hfuel, List.map_map]
      simp [Function.comp_def, omega]
    · rw [data_real Real.cos fuel hfuel, List.map_map]
      rfl

theorem sample_contents_witness :
    (402 ≤ 402) ∧ ((∀ (cos : F64 → F64) (A f φ : F64),
        ∃ times : List F64, loopTimes 402 (lit 0) = some times ∧ times.length = 401
          ∧ data cos 402 A f φ = some (times.map (fun tau =>
              ⟨toFixed2 tau, A * cos (lit 2 * PI * f * tau + φ)⟩))
          ∧ data cos 402 A f φ = some (times.map (fun tau =>
              ⟨toFixed2 tau, x cos A f φ tau⟩)))
      ∧ (∀ A f φ : ℝ,
          loopTimes 402 (lit 0 : ℝ) = some ((List.range 401).map (fun i : ℕ => (i : ℝ) / 50))
          ∧ data Real.cos 402 A f φ = some ((List.range 401).map (fun i : ℕ =>
              ⟨toFixed2 ((i : ℝ) / 50),
                A * Real.cos (2 * Real.pi * f * ((i : ℝ) / 50) + φ)⟩))
          ∧ data Real.cos 402 A f φ = some ((List.range 401).map (fun i : ℕ =>
              ⟨toFixed2 ((i : ℝ) / 50), x Real.cos A f φ ((i : ℝ) / 50)⟩))
          ∧ ∀ i : ℕ, toFixed2 ((i : ℝ) / 50) = (i : ℝ) / 50)) :=
  ⟨le_refl 402, sample_contents 402 (le_refl 402)⟩

/-! ## Bounds -/

theorem f64_lit_two_hundred : fl 200 = 200 := by
  decide!

/-- A product by a value in `[-1, 1]`, rounded, stays within any bound that is a double. -/
theorem f64_mul_bounded (A c : F64) (b : ℚ) (hb : fl b = b) (hA0 : 0 ≤ A.val)
    (hAb : A.val ≤ b) (hc : -1 ≤ c.val ∧ c.val ≤ 1) :
    -b ≤ (A * c).val ∧ (A * c).val ≤ b := by
  have hval : (A * c).val = fl (A.val * c.val) := rfl
  rw [hval]
  constructor
  · have h := fl_mono (-b) (A.val * c.val) (by nlinarith [hc.1, hc.2])
    rwa [fl_neg, hb] at h
  · have h := fl_mono (A.val * c.val) b (by nlinarith [hc.1, hc.2])
    rwa [hb] at h

/-- C10: for `A ≥ 0` and every frequency, phase and time, the position lies in `[-A, A]`,
and so does the `x` of each of the 401 samples of the table; with `A` in `[20, 200]` the
position and all samples lie in the domain `[-200, 200]` of the y axis (lines 181 to
184). This holds in exact arithmetic, and in binary64 for every `Math.cos` with values
in `[-1, 1]`, the bound `A` being then a double (as every stored amplitude is). -/
theorem position_bounded (fuel : Nat) (hfuel : 402 ≤ fuel) :
    (∀ A f φ : ℝ, 0 ≤ A →
      (∀ t : ℝ, -A ≤ x Real.cos A f φ t ∧ x Real.cos A f φ t ≤ A)
      ∧ (∃ pts, data Real.cos fuel A f φ = some pts
          ∧ pts.length = 401 ∧ ∀ p ∈ pts, -A ≤ p.x ∧ p.x ≤ A)
      ∧ (20 ≤ A → A ≤ 200 →
          (∀ t : ℝ, -200 ≤ x Real.cos A f φ t ∧ x Real.cos A f φ t ≤ 200)
          ∧ (∃ pts, data Real.cos fuel A f φ = some pts
              ∧ pts.length = 401 ∧ ∀ p ∈ pts, -200 ≤ p.x ∧ p.x ≤ 200)))
    ∧ (∀ cos : F64 → F64, (∀ y, -1 ≤ (cos y).val ∧ (cos y).val ≤ 1) →
      ∀ A f φ : F64, 0 ≤ A.val →
        (fl A.val = A.val →
          (∀ t : F64, -A.val ≤ (x cos A f φ t).val ∧ (x cos A f φ t).val ≤ A.val)
          ∧ (∃ pts, data cos fuel A f φ = some pts
              ∧ pts.length = 401 ∧ ∀ p ∈ pts, -A.val ≤ p.x.val ∧ p.x.val ≤ A.val))
        ∧ (20 ≤ A.val → A.val ≤ 200 →
          (∀ t : F64, -200 ≤ (x cos A f φ t).val ∧ (x cos A f φ t).val ≤ 200)
          ∧ (∃ pts, data cos fuel A f φ = some pts
              ∧ pts.length = 401 ∧ ∀ p ∈ pts, -200 ≤ p.x.val ∧ p.x.val ≤ 200))) := by
  constructor
  · intro A f φ hA
    have hx : ∀ t : ℝ, -A ≤ x Real.cos A f φ t ∧ x Real.cos A f φ t ≤ A := by
      intro t
      rw [x_real]
      have h1 := Real.neg_one_le_cos (2 * Real.pi * f * t + φ)
      have h2 := Real.cos_le_one (2 * Real.pi * f * t + φ)
      constructor <;> nlinarith
    have hpts : ∃ pts, data Real.cos fuel A f φ = some pts
        ∧ pts.length = 401 ∧ ∀ p ∈ pts, -A ≤ p.x ∧ p.x ≤ A := by
      refine ⟨_, data_real Real.cos fuel hfuel A f φ, by simp, ?_⟩
      intro p hp
      simp only [List.mem_map] at hp
      obtain ⟨u, -, rfl⟩ := hp
      exact hx u
    refine ⟨hx, hpts, ?_⟩
    intro h20 h200
    constructor
    · intro t
      obtain ⟨h1, h2⟩ := hx t
      constructor <;> linarith
    · obtain ⟨pts, hd, hl, hb⟩ := hpts
      refine ⟨pts, hd, hl, ?_⟩
      intro p hp
      obtain ⟨h1, h2⟩ := hb p hp
      constructor <;> linarith
  · intro cos hcos A f φ hA
    have hgen : ∀ b : ℚ, fl b = b → A.val ≤ b →
        (∀ t : F64, -b ≤ (x cos A f φ t).val ∧ (x cos A f φ t).val ≤ b)
        ∧ (∃ pts, data cos fuel A f φ = some pts
            ∧ pts.length = 401 ∧ ∀ p ∈ pts, -b ≤ p.x.val ∧ p.x.val ≤ b) := by
      intro b hb hAb
      have hx : ∀ t : F64, -b ≤ (x cos A f φ t).val ∧ (x cos A f φ t).val ≤ b :=
        fun t => f64_mul_bounded A _ b hb hA hAb (hcos _)
      refine ⟨hx, _, data_f64 cos fuel hfuel A f φ, by simp [f64Times_length], ?_⟩
      intro p hp
      simp only [List.mem_map] at hp
      obtain ⟨u, -, rfl⟩ := hp
      exact hx u
    exact ⟨fun hdouble => hgen A.val hdouble (le_refl _),
      fun _ h200 => by
        have := hgen 200 f64_lit_two_hundred h200
        simpa using this⟩

theorem position_bounded_witness :
    (402 ≤ 402) ∧ (0 : ℝ) ≤ 120 ∧ (20 : ℝ) ≤ 120 ∧ (120 : ℝ) ≤ 200
      ∧ (∀ _y : F64, -1 ≤ (⟨1⟩ : F64).val ∧ (⟨1⟩ : F64).val ≤ 1)
      ∧ (0 : ℚ) ≤ (⟨120⟩ : F64).val ∧ fl (⟨120⟩ : F64).val = (⟨120⟩ : F64).val
      ∧ (20 : ℚ) ≤ (⟨120⟩ : F64).val ∧ (⟨120⟩ : F64).val ≤ 200
      ∧ (∀ t : ℝ, -120 ≤ x Real.cos 120 0.5 0 t ∧ x Real.cos 120 0.5 0 t ≤ 120)
      ∧ (∃ pts, data Real.cos 402 120 0.5 0 = some pts
          ∧ pts.length = 401 ∧ ∀ p ∈ pts, -200 ≤ p.x ∧ p.x ≤ 200)
      ∧ (∀ t : F64, -120 ≤ (x (fun _ => ⟨1⟩) ⟨120⟩ (lit 0.5) (lit 0) t).val
          ∧ (x (fun _ => ⟨1⟩) ⟨120⟩ (lit 0.5) (lit 0) t).val ≤ 120)
      ∧ (∃ pts, data (fun _ => (⟨1⟩ : F64)) 402 ⟨120⟩ (lit 0.5) (lit 0) = some pts
          ∧ pts.length = 401 ∧ ∀ p ∈ pts, -200 ≤ p.x.val ∧ p.x.val ≤ 200) := by
  have hcos : ∀ _y : F64, -1 ≤ (⟨1⟩ : F64).val ∧ (⟨1⟩ : F64).val ≤ 1 := by
    intro _; norm_num
  have hA : (0 : ℚ) ≤ (⟨120⟩ : F64).val := by norm_num
  have hd : fl (⟨120⟩ : F64).val = (⟨120⟩ : F64).val := by decide!
  have h20 : (20 : ℚ) ≤ (⟨120⟩ : F64).val := by norm_num
  have h200 : (⟨120⟩ : F64).val ≤ 200 := by norm_num
  obtain ⟨hreal, hf64⟩ := position_bounded 402 (le_refl 402)
  obtain ⟨r1, -, r3⟩ := hreal 120 0.5 0 (by norm_num)
  obtain ⟨g1, g2⟩ := hf64 (fun _ => ⟨1⟩) hcos ⟨120⟩ (lit 0.5) (lit 0) hA
  exact ⟨le_refl 402, by norm_num, by norm_num, by norm_num, hcos, hA, hd, h20, h200, r1,
    (r3 (by norm_num) (by norm_num)).2, (g1 hd).1, (g2 h20 h200).2⟩

/-! ## Regeneration of the table -/

section Regeneration

variable {α : Type} [JSNum α] (cos : α → α) (fuel : Nat)

/-- Animation frames in a coherent state never run the factory. -/
theorem run_frames (hsame : ∀ a b : α, same a b = true ↔ a = b) (nows : List α) :
    ∀ s : State α, Coherent cos fuel s →
      ∃ s1, run cos fuel s (nows.map Event.animationFrame) = some s1
        ∧ s1.data = s.data ∧ s1.regenerations = s.regenerations
        ∧ s1.amplitude = s.amplitude ∧ s1.frequency = s.frequency ∧ s1.phase = s.phase := by
  induction nows with
  | nil => intro s _; exact ⟨s, rfl, rfl, rfl, rfl, rfl, rfl⟩
  | cons now rest ih =>
    intro s hco
    obtain ⟨h1, h2, h3, h4, -, h6⟩ := runCallbacks_keeps now s
    obtain ⟨s2, hr, hd, hg, ha, hf, hp⟩ :=
      ih (runCallbacks now s) (coherent_congr cos fuel hco h1 h2 h3 h4)
    refine ⟨s2, ?_, by rw [hd, h4], by rw [hg, h6], by rw [ha, h1], by rw [hf, h2],
      by rw [hp, h3]⟩
    simp [run, step_frame cos fuel hsame s hco now, hr]

/-- A render after a change of the dependencies runs the factory once, on the new
parameters. -/
theorem render_changed (hsame : ∀ a b : α, same a b = true ↔ a = b)
    (hdata : ∀ A f φ : α, ∃ pts, data cos fuel A f φ = some pts)
    (s : State α) (hco : Coherent cos fuel s) (A f φ : α)
    (hne : (A, f, φ) ≠ (s.amplitude, s.frequency, s.phase)) :
    ∃ s1, render cos fuel { s with amplitude := A, frequency := f, phase := φ } = some s1
      ∧ s1.regenerations = s.regenerations + 1
      ∧ s1.table = data cos fuel A f φ
      ∧ Coherent cos fuel s1
      ∧ s1.amplitude = A ∧ s1.frequency = f ∧ s1.phase = φ ∧ s1.t = s.t := by
  obtain ⟨pts, hd⟩ := hdata A f φ
  obtain ⟨old, hold, -⟩ := hco
  refine ⟨_, render_stale cos fuel hsame _ pts ?_ hd, rfl, ?_, ⟨pts, rfl, hd⟩,
    rfl, rfl, rfl, rfl⟩
  · intro m hm
    simp only [hold, Option.some.injEq] at hm
    subst hm
    exact fun h => hne h.symm
  · simp [State.table, hd]

end Regeneration

/-- C6: in every state the component reaches (binary64, any `Math.cos`), the cached table
is the table of the current amplitude, frequency and phase, whatever the elapsed time.
Any number of animation frames leaves the cell and the count of factory runs unchanged.
A change of one parameter to a different value runs the factory exactly once, on the new
parameters, and the frames that follow do not run it again. -/
theorem table_regeneration (cos : F64 → F64) (fuel : Nat) (hfuel : 402 ≤ fuel)
    (now : F64) (handle : Nat) (events : List (Event F64)) :
    ∃ s, reach cos fuel now handle events = some s
      ∧ s.table = data cos fuel s.amplitude s.frequency s.phase
      ∧ (∀ nows : List F64, ∃ s1, run cos fuel s (nows.map Event.animationFrame) = some s1
          ∧ s1.data = s.data ∧ s1.regenerations = s.regenerations)
      ∧ (∀ v, v ≠ s.amplitude → ∃ s1, step cos fuel s (Event.changeAmplitude v) = some s1
          ∧ s1.regenerations = s.regenerations + 1
          ∧ s1.table = data cos fuel v s.frequency s.phase
          ∧ ∀ nows : List F64, ∃ s2,
              run cos fuel s1 (nows.map Event.animationFrame) = some s2
              ∧ s2.data = s1.data ∧ s2.regenerations = s.regenerations + 1)
      ∧ (∀ v, v ≠ s.frequency → ∃ s1, step cos fuel s (Event.changeFrequency v) = some s1
          ∧ s1.regenerations = s.regenerations + 1
          ∧ s1.table = data cos fuel s.amplitude v s.phase
          ∧ ∀ nows : List F64, ∃ s2,
              run cos fuel s1 (nows.map Event.animationFrame) = some s2
              ∧ s2.data = s1.data ∧ s2.regenerations = s.regenerations + 1)
      ∧ (∀ v, v ≠ s.phase → ∃ s1, step cos fuel s (Event.changePhase v) = some s1
          ∧ s1.regenerations = s.regenerations + 1
          ∧ s1.table = data cos fuel s.amplitude s.frequency v
          ∧ ∀ nows : List F64, ∃ s2,
              run cos fuel s1 (nows.map Event.animationFrame) = some s2
              ∧ s2.data = s1.data ∧ s2.regenerations = s.regenerations + 1) := by
  have hdata := hdata_f64 cos fuel hfuel
  obtain ⟨s, hs, hco, -, -⟩ := reach_inv cos fuel same_f64 hdata now handle events
  have hframes : ∀ s1 : State F64, Coherent cos fuel s1 → ∀ g, s1.regenerations = g →
      ∀ nows : List F64, ∃ s2, run cos fuel s1 (nows.map Event.animationFrame) = some s2
        ∧ s2.data = s1.data ∧ s2.regenerations = g := by
    intro s1 hc1 g hg nows
    obtain ⟨s2, hr, hd, hg2, -⟩ := run_frames cos fuel same_f64 nows s1 hc1
    exact ⟨s2, hr, hd, by rw [hg2, hg]⟩
  refine ⟨s, hs, ?_, hframes s hco _ rfl, ?_, ?_, ?_⟩
  · obtain ⟨pts, h1, h2⟩ := hco
    simp [State.table, h1, h2]
  · intro v hv
    obtain ⟨s1, hr, hg, ht, hc1, -⟩ := render_changed cos fuel same_f64 hdata s hco
      v s.frequency s.phase (by intro h; exact hv (congrArg Prod.fst h))
    exact ⟨s1, hr, hg, ht, hframes s1 hc1 _ hg⟩
  · intro v hv
    obtain ⟨s1, hr, hg, ht, hc1, -⟩ := render_changed cos fuel same_f64 hdata s hco
      s.amplitude v s.phase (by intro h; exact hv (congrArg (fun p => p.2.1) h))
    exact ⟨s1, hr, hg, ht, hframes s1 hc1 _ hg⟩
  · intro v hv
    obtain ⟨s1, hr, hg, ht, hc1, -⟩ := render_changed cos fuel same_f64 hdata s hco
      s.amplitude s.frequency v (by intro h; exact hv (congrArg (fun p => p.2.2) h))
    exact ⟨s1, hr, hg, ht, hframes s1 hc1 _ hg⟩

/-- C5: in binary64, for every `Math.cos`, two regenerations with the same amplitude,
frequency and phase, in any two states of the component whose cells are empty, both run
the factory and store identical tables: the same length 401, equal `t` and equal `x`
position by position, `t` strictly ascending; it is the table the factory returns for
these parameters. -/
theorem regeneration_deterministic (cos : F64 → F64) (fuel : Nat) (hfuel : 402 ≤ fuel)
    (A f φ : F64) (s1 s2 : State F64) :
    ∃ r1 r2 q1 q2,
      render cos fuel { s1 with amplitude := A, frequency := f, phase := φ, data := none }
          = some r1
      ∧ render cos fuel { s2 with amplitude := A, frequency := f, phase := φ, data := none }
          = some r2
      ∧ r1.regenerations = s1.regenerations + 1 ∧ r2.regenerations = s2.regenerations + 1
      ∧ r1.table = some q1 ∧ r2.table = some q2
      ∧ q1 = q2
      ∧ q1.length = 401 ∧ q2.length = 401
      ∧ (∀ i (h1 : i < q1.length) (h2 : i < q2.length),
            q1[i].t = q2[i].t ∧ q1[i].x = q2[i].x)
      ∧ q1.Pairwise (fun a b => a.t.val < b.t.val)
      ∧ data cos fuel A f φ = some q1 := by
  obtain ⟨pts, hd, hl, -, -, hasc, -⟩ := f64_table cos A f φ fuel hfuel
  refine ⟨_, _, pts, pts,
    render_stale cos fuel same_f64 _ pts (by intro m hm; simp at hm) hd,
    render_stale cos fuel same_f64 _ pts (by intro m hm; simp at hm) hd,
    rfl, rfl, rfl, rfl, rfl, hl, hl, ?_, hasc, hd⟩
  intro i h1 h2
  exact ⟨rfl, rfl⟩

/-! ## Frame conditions, cancellation and the elapsed time -/

section Frames

variable {α : Type} [JSNum α] (cos : α → α) (fuel : Nat)

/-- What a single event does to the elapsed time, to the browser map and to `start`,
in a state that satisfies the invariant. -/
theorem step_effect (hsame : ∀ a b : α, same a b = true ↔ a = b)
    (hdata : ∀ A f φ : α, ∃ pts, data cos fuel A f φ = some pts) (s : State α)
    (hco : Coherent cos fuel s) (e : Event α) :
    ∃ s1, step cos fuel s e = some s1 ∧ Coherent cos fuel s1 ∧ s1.start = s.start
      ∧ (s.callbacks = [] → s1.callbacks = [] ∧ s1.t = s.t ∧ s1.frame = s.frame)
      ∧ (s.callbacks = [s.frame] →
          (e = Event.unmount ∧ s1.callbacks = [] ∧ s1.t = s.t)
          ∨ (∃ now, e = Event.animationFrame now ∧ s1.callbacks = [s1.frame]
              ∧ s1.t = (now - s.start) / lit 1000)
          ∨ ((∀ now, e ≠ Event.animationFrame now) ∧ e ≠ Event.unmount
              ∧ s1.callbacks = [s1.frame] ∧ s1.t = s.t)) := by
  have hcell := Coherent.cellOk cos fuel hco
  cases e with
  | animationFrame now =>
    obtain ⟨h1, h2, h3, h4, h5, -⟩ := runCallbacks_keeps now s
    refine ⟨_, step_frame cos fuel hsame s hco now,
      coherent_congr cos fuel hco h1 h2 h3 h4, h5, ?_, ?_⟩
    · intro h
      rw [runCallbacks_idle now s h]
      exact ⟨h, rfl, rfl⟩
    · intro h
      right; left
      refine ⟨now, rfl, ?_, ?_⟩ <;> rw [runCallbacks_live now s h]
  | changeAmplitude v =>
    obtain ⟨s1, hr, hc1, -, -, -, ht, hst, hfr, hcbs, -⟩ :=
      render_spec cos fuel hsame hdata { s with amplitude := v } (fun m hm => hcell m hm)
    refine ⟨s1, hr, hc1, hst, fun h => ⟨by rw [hcbs]; exact h, ht, hfr⟩, fun h => ?_⟩
    right; right
    exact ⟨fun now => by simp, by simp, by rw [hcbs, hfr]; exact h, ht⟩
  | changeFrequency v =>
    obtain ⟨s1, hr, hc1, -, -, -, ht, hst, hfr, hcbs, -⟩ :=
      render_spec cos fuel hsame hdata { s with frequency := v } (fun m hm => hcell m hm)
    refine ⟨s1, hr, hc1, hst, fun h => ⟨by rw [hcbs]; exact h, ht, hfr⟩, fun h => ?_⟩
    right; right
    exact ⟨fun now => by simp, by simp, by rw [hcbs, hfr]; exact h, ht⟩
  | changePhase v =>
    obtain ⟨s1, hr, hc1, -, -, -, ht, hst, hfr, hcbs, -⟩ :=
      render_spec cos fuel hsame hdata { s with phase := v } (fun m hm => hcell m hm)
    refine ⟨s1, hr, hc1, hst, fun h => ⟨by rw [hcbs]; exact h, ht, hfr⟩, fun h => ?_⟩
    right; right
    exact ⟨fun now => by simp, by simp, by rw [hcbs, hfr]; exact h, ht⟩
  | unmount =>
    refine ⟨_, rfl, coherent_congr cos fuel hco rfl rfl rfl rfl, rfl, ?_, ?_⟩
    · intro h
      exact ⟨by simp [cancelAnimationFrame, h], rfl, rfl⟩
    · intro h
      left
      exact ⟨rfl, by simp [cancelAnimationFrame, h], rfl⟩

/-- Once the map of the browser holds no handle of the component, no event writes the
elapsed time. -/
theorem run_idle (hsame : ∀ a b : α, same a b = true ↔ a = b)
    (hdata : ∀ A f φ : α, ∃ pts, data cos fuel A f φ = some pts) (events : List (Event α)) :
    ∀ s : State α, Coherent cos fuel s → s.callbacks = [] →
      ∃ s1, run cos fuel s events = some s1 ∧ s1.t = s.t ∧ s1.callbacks = []
        ∧ Coherent cos fuel s1 := by
  induction events with
  | nil => intro s hco hcb; exact ⟨s, rfl, rfl, hcb, hco⟩
  | cons e es ih =>
    intro s hco hcb
    obtain ⟨s1, hs1, hco1, -, hidle, -⟩ := step_effect cos fuel hsame hdata s hco e
    obtain ⟨hcb1, ht1, -⟩ := hidle hcb
    obtain ⟨s2, hs2, ht2, hcb2, hco2⟩ := ih s1 hco1 hcb1
    exact ⟨s2, by simp [run, hs1, hs2], by rw [ht2, ht1], hcb2, hco2⟩

/-- Until the cleanup runs, `frame` is the one handle in the map of the browser. -/
theorem run_live (hsame : ∀ a b : α, same a b = true ↔ a = b)
    (hdata : ∀ A f φ : α, ∃ pts, data cos fuel A f φ = some pts) (events : List (Event α)) :
    ∀ s : State α, Coherent cos fuel s → s.callbacks = [s.frame] →
      Event.unmount ∉ events →
      ∃ s1, run cos fuel s events = some s1 ∧ s1.callbacks = [s1.frame]
        ∧ s1.start = s.start := by
  induction events with
  | nil => intro s _ hcb _; exact ⟨s, rfl, hcb, rfl⟩
  | cons e es ih =>
    intro s hco hcb hno
    obtain ⟨s1, hs1, hco1, hst1, -, hlive⟩ := step_effect cos fuel hsame hdata s hco e
    have hne : e ≠ Event.unmount := fun h => hno (by simp [h])
    have hcb1 : s1.callbacks = [s1.frame] := by
      rcases hlive hcb with ⟨h, -⟩ | ⟨_, -, h, -⟩ | ⟨-, -, h, -⟩
      · exact absurd h hne
      · exact h
      · exact h
    obtain ⟨s2, hs2, hcb2, hst2⟩ := ih s1 hco1 hcb1 (fun h => hno (List.mem_cons_of_mem _ h))
    exact ⟨s2, by simp [run, hs1, hs2], hcb2, by rw [hst2, hst1]⟩

end Frames

/-- C8: in binary64, for every `Math.cos` and in every state, the handler of a slider
stores the event value in its own parameter and leaves the elapsed time and the other
two parameters unchanged; an animation frame leaves all three parameters unchanged. -/
theorem frame_conditions (cos : F64 → F64) (fuel : Nat) (hfuel : 402 ≤ fuel)
    (s : State F64) (v now : F64) :
    (∃ s1, step cos fuel s (Event.changeAmplitude v) = some s1 ∧ s1.amplitude = v
        ∧ s1.t = s.t ∧ s1.frequency = s.frequency ∧ s1.phase = s.phase)
      ∧ (∃ s1, step cos fuel s (Event.changeFrequency v) = some s1 ∧ s1.frequency = v
        ∧ s1.t = s.t ∧ s1.amplitude = s.amplitude ∧ s1.phase = s.phase)
      ∧ (∃ s1, step cos fuel s (Event.changePhase v) = some s1 ∧ s1.phase = v
        ∧ s1.t = s.t ∧ s1.amplitude = s.amplitude ∧ s1.frequency = s.frequency)
      ∧ (∃ s1, step cos fuel s (Event.animationFrame now) = some s1
        ∧ s1.amplitude = s.amplitude ∧ s1.frequency = s.frequency ∧ s1.phase = s.phase) := by
  have hdata := hdata_f64 cos fuel hfuel
  refine ⟨?_, ?_, ?_, ?_⟩
  · obtain ⟨s1, hr, ha, hf, hp, ht, -⟩ := render_total cos fuel hdata { s with amplitude := v }
    exact ⟨s1, hr, ha, ht, hf, hp⟩
  · obtain ⟨s1, hr, ha, hf, hp, ht, -⟩ := render_total cos fuel hdata { s with frequency := v }
    exact ⟨s1, hr, hf, ht, ha, hp⟩
  · obtain ⟨s1, hr, ha, hf, hp, ht, -⟩ := render_total cos fuel hdata { s with phase := v }
    exact ⟨s1, hr, hp, ht, ha, hf⟩
  · obtain ⟨s1, hr, ha, hf, hp, -⟩ := render_total cos fuel hdata (runCallbacks now s)
    obtain ⟨h1, h2, h3, -⟩ := runCallbacks_keeps now s
    exact ⟨s1, hr, by rw [ha, h1], by rw [hf, h2], by rw [hp, h3]⟩

/-- C9: in binary64, for every `Math.cos`: in a state reached without cleanup, `frame` is
the one handle in the map of the browser. The cleanup `cancelAnimationFrame(frame)`,
run in any reachable state, empties the map; after it, whatever events follow, no
callback runs (running the frame callbacks leaves the state as it is) and the elapsed
time keeps its value; a second cancellation changes nothing. -/
theorem cancellation (cos : F64 → F64) (fuel : Nat) (hfuel : 402 ≤ fuel)
    (now : F64) (handle : Nat) (events : List (Event F64)) :
    ∃ s, reach cos fuel now handle events = some s
      ∧ (Event.unmount ∉ events → s.callbacks = [s.frame])
      ∧ ∃ s1, step cos fuel s Event.unmount = some s1
          ∧ s1 = cancelAnimationFrame s.frame s
          ∧ s1.callbacks = [] ∧ s1.t = s.t
          ∧ (∀ later : List (Event F64), ∃ s2, run cos fuel s1 later = some s2
              ∧ s2.t = s1.t ∧ s2.callbacks = []
              ∧ ∀ now2, runCallbacks now2 s2 = s2)
          ∧ cancelAnimationFrame s1.frame s1 = s1
          ∧ step cos fuel s1 Event.unmount = some s1 := by
  have hdata := hdata_f64 cos fuel hfuel
  obtain ⟨s0, hm, hco0, hcb0, -⟩ := mount_spec cos fuel hdata now handle
  obtain ⟨s, hr, hco, hcb, -⟩ := run_inv cos fuel same_f64 hdata events s0 hco0 (Or.inl hcb0)
  have hreach : reach cos fuel now handle events = some s := by simp [reach, hm, hr]
  have hempty : (cancelAnimationFrame s.frame s).callbacks = [] := by
    rcases hcb with h | h <;> simp [cancelAnimationFrame, h]
  have hco1 : Coherent cos fuel (cancelAnimationFrame s.frame s) :=
    coherent_congr cos fuel hco rfl rfl rfl rfl
  have hsecond : cancelAnimationFrame (cancelAnimationFrame s.frame s).frame
      (cancelAnimationFrame s.frame s) = cancelAnimationFrame s.frame s := by
    rcases hcb with h | h <;> simp [cancelAnimationFrame, h]
  refine ⟨s, hreach, ?_, cancelAnimationFrame s.frame s, rfl, rfl, hempty, rfl, ?_,
    hsecond, ?_⟩
  · intro hno
    obtain ⟨s', hr', hcb', -⟩ := run_live cos fuel same_f64 hdata events s0 hco0 hcb0 hno
    rw [hr] at hr'
    cases hr'
    exact hcb'
  · intro later
    obtain ⟨s2, hr2, ht2, hcb2, -⟩ := run_idle cos fuel same_f64 hdata later _ hco1 hempty
    exact ⟨s2, hr2, ht2, hcb2, fun now2 => runCallbacks_idle now2 s2 hcb2⟩
  · show some _ = some _
    rw [hsecond]

/-! ## The elapsed time along a run -/

section Elapsed

variable {α : Type} [JSNum α] (cos : α → α) (fuel : Nat) (R : α → α → Prop)

/-- One event: for an order `R` that the tick formula respects, the elapsed time does
not decrease and stays below the elapsed time of every later frame. -/
theorem step_elapsed (hsame : ∀ a b : α, same a b = true ↔ a = b)
    (hdata : ∀ A f φ : α, ∃ pts, data cos fuel A f φ = some pts)
    (hrefl : ∀ a : α, R a a)
    (hmono : ∀ start a b : α, R a b → R ((a - start) / lit 1000) ((b - start) / lit 1000))
    (start : α) (s : State α) (hco : Coherent cos fuel s)
    (hcb : s.callbacks = [s.frame] ∨ s.callbacks = []) (hst : s.start = start)
    (e : Event α) (es : List (Event α))
    (hnext : ∀ n ∈ frameTimes (e :: es), R s.t ((n - start) / lit 1000))
    (hsorted : List.Pairwise R (frameTimes (e :: es))) :
    ∃ s1, step cos fuel s e = some s1 ∧ Coherent cos fuel s1
      ∧ (s1.callbacks = [s1.frame] ∨ s1.callbacks = []) ∧ s1.start = start
      ∧ R s.t s1.t
      ∧ (∀ n ∈ frameTimes es, R s1.t ((n - start) / lit 1000))
      ∧ List.Pairwise R (frameTimes es) := by
  obtain ⟨s1, hs1, hco1, hst1, hidle, hlive⟩ := step_effect cos fuel hsame hdata s hco e
  have hsub : ∀ n ∈ frameTimes es, n ∈ frameTimes (e :: es) := by
    intro n hn
    cases e <;> simp [frameTimes, hn]
  have hsorted1 : List.Pairwise R (frameTimes es) := by
    cases e
    · exact (List.pairwise_cons.mp (by simpa [frameTimes] using hsorted)).2
    all_goals simpa [frameTimes] using hsorted
  have hkeep : s1.t = s.t →
      R s.t s1.t ∧ ∀ n ∈ frameTimes es, R s1.t ((n - start) / lit 1000) := by
    intro ht
    rw [ht]
    exact ⟨hrefl _, fun n hn => hnext n (hsub n hn)⟩
  rcases hcb with hcb | hcb
  · rcases hlive hcb with ⟨-, hc, ht⟩ | ⟨now, rfl, hc, ht⟩ | ⟨-, -, hc, ht⟩
    · exact ⟨s1, hs1, hco1, Or.inr hc, by rw [hst1, hst], (hkeep ht).1, (hkeep ht).2, hsorted1⟩
    · have ht1 : s1.t = (now - start) / lit 1000 := by rw [ht, hst]
      refine ⟨s1, hs1, hco1, Or.inl hc, by rw [hst1, hst], ?_, ?_, hsorted1⟩
      · rw [ht1]
        exact hnext now (by simp [frameTimes])
      · intro n hn
        rw [ht1]
        have h := List.pairwise_cons.mp (by simpa [frameTimes] using hsorted)
        exact hmono start now n (h.1 n hn)
    · exact ⟨s1, hs1, hco1, Or.inl hc, by rw [hst1, hst], (hkeep ht).1, (hkeep ht).2, hsorted1⟩
  · obtain ⟨hc, ht, -⟩ := hidle hcb
    exact ⟨s1, hs1, hco1, Or.inr hc, by rw [hst1, hst], (hkeep ht).1, (hkeep ht).2, hsorted1⟩

theorem trace_elapsed (hsame : ∀ a b : α, same a b = true ↔ a = b)
    (hdata : ∀ A f φ : α, ∃ pts, data cos fuel A f φ = some pts)
    (hrefl : ∀ a : α, R a a) (htrans : ∀ a b c : α, R a b → R b c → R a c)
    (hmono : ∀ start a b : α, R a b → R ((a - start) / lit 1000) ((b - start) / lit 1000))
    (start : α) (events : List (Event α)) :
    ∀ s : State α, Coherent cos fuel s →
      (s.callbacks = [s.frame] ∨ s.callbacks = []) → s.start = start →
      (∀ n ∈ frameTimes events, R s.t ((n - start) / lit 1000)) →
      List.Pairwise R (frameTimes events) →
      ∃ ts, elapsedTrace cos fuel s events = some ts ∧ ts.length = events.length
        ∧ (∀ u ∈ ts, R s.t u) ∧ List.Pairwise R ts := by
  induction events with
  | nil => intro s _ _ _ _ _; exact ⟨[], rfl, rfl, by simp, by simp⟩
  | cons e es ih =>
    intro s hco hcb hst hnext hsorted
    obtain ⟨s1, hs1, hco1, hcb1, hst1, hle, hnext1, hsorted1⟩ :=
      step_elapsed cos fuel R hsame hdata hrefl hmono start s hco hcb hst e es hnext hsorted
    obtain ⟨ts, htr, hlen, hge, hts⟩ := ih s1 hco1 hcb1 hst1 hnext1 hsorted1
    refine ⟨s1.t :: ts, by simp [elapsedTrace, hs1, htr], by simp [hlen], ?_, ?_⟩
    · intro u hu
      rcases List.mem_cons.mp hu with h | h
      · rw [h]; exact hle
      · exact htrans _ _ _ hle (hge u h)
    · exact List.pairwise_cons.mpr ⟨hge, hts⟩

/-- A frame before any cleanup writes the tick formula. -/
theorem tick_formula (hsame : ∀ a b : α, same a b = true ↔ a = b)
    (hdata : ∀ A f φ : α, ∃ pts, data cos fuel A f φ = some pts)
    (start : α) (handle : Nat) (events : List (Event α)) (now : α)
    (hno : Event.unmount ∉ events) :
    ∃ s0 s s1, mount cos fuel start handle = some s0 ∧ run cos fuel s0 events = some s
      ∧ step cos fuel s (Event.animationFrame now) = some s1
      ∧ s1.t = (now - start) / lit 1000 ∧ s1.start = start := by
  obtain ⟨s0, hm, hco0, hcb0, hst0, -⟩ := mount_spec cos fuel hdata start handle
  obtain ⟨s, hr, hcb, hst⟩ := run_live cos fuel hsame hdata events s0 hco0 hcb0 hno
  have hco : Coherent cos fuel s := by
    obtain ⟨s', hr', hco', -, -⟩ := run_inv cos fuel hsame hdata events s0 hco0 (Or.inl hcb0)
    rw [hr] at hr'
    cases hr'
    exact hco'
  refine ⟨s0, s, _, hm, hr, step_frame cos fuel hsame s hco now, ?_, ?_⟩
  · rw [runCallbacks_live now s hcb]
    simp [hst, hst0]
  · rw [(runCallbacks_keeps now s).2.2.2.2.1, hst, hst0]

end Elapsed

theorem f64_lit_thousand : (lit 1000 : F64).val = 1000 := by
  decide!

theorem f64_elapsed_val (now start : F64) :
    ((now - start) / lit 1000 : F64).val = fl (fl (now.val - start.val) / 1000) := by
  show fl (fl (now.val - start.val) / (lit 1000 : F64).val) = _
  rw [f64_lit_thousand]

theorem f64_elapsed_mono (start a b : F64) (h : a.val ≤ b.val) :
    ((a - start) / lit 1000 : F64).val ≤ ((b - start) / lit 1000 : F64).val := by
  rw [f64_elapsed_val, f64_elapsed_val]
  apply fl_mono
  apply div_le_div_of_nonneg_right _ (by norm_num)
  apply fl_mono
  linarith

theorem f64_elapsed_nonneg (start a : F64) (h : start.val ≤ a.val) :
    0 ≤ ((a - start) / lit 1000 : F64).val := by
  rw [f64_elapsed_val]
  apply fl_nonneg
  apply div_nonneg _ (by norm_num)
  apply fl_nonneg
  linarith

/-- C7: with `start` the reading the effect captured, a frame that comes before any
cleanup sets the elapsed time to `(now - start) / 1000`, whatever happened before, and
keeps `start`. Along any sequence of events whose frame timestamps are non-decreasing
and at least `start`, the elapsed time read after each event is non-negative and
non-decreasing, from its initial value `0`. Both hold in exact arithmetic and in
binary64, where the quotient is the rounded one, for every `Math.cos`. -/
theorem elapsed_time (fuel : Nat) (hfuel : 402 ≤ fuel) (handle : Nat) :
    (∀ (cos : ℝ → ℝ) (start : ℝ),
      ∃ s0, mount cos fuel start handle = some s0 ∧ s0.start = start ∧ s0.t = 0
        ∧ (∀ (events : List (Event ℝ)) (now : ℝ), Event.unmount ∉ events →
            ∃ s s1, run cos fuel s0 events = some s
              ∧ step cos fuel s (Event.animationFrame now) = some s1
              ∧ s1.t = (now - start) / 1000 ∧ s1.start = start)
        ∧ (∀ events : List (Event ℝ), List.Sorted (· ≤ ·) (start :: frameTimes events) →
            ∃ ts, elapsedTrace cos fuel s0 events = some ts ∧ ts.length = events.length
              ∧ List.Sorted (· ≤ ·) (s0.t :: ts) ∧ ∀ u ∈ ts, 0 ≤ u))
      ∧ (∀ (cos : F64 → F64) (start : F64),
        ∃ s0, mount cos fuel start handle = some s0 ∧ s0.start = start ∧ s0.t.val = 0
          ∧ (∀ (events : List (Event F64)) (now : F64), Event.unmount ∉ events →
              ∃ s s1, run cos fuel s0 events = some s
                ∧ step cos fuel s (Event.animationFrame now) = some s1
                ∧ s1.t = (now - start) / lit 1000
                ∧ s1.t.val = fl (fl (now.val - start.val) / 1000) ∧ s1.start = start)
          ∧ (∀ events : List (Event F64),
              List.Sorted (fun a b : F64 => a.val ≤ b.val) (start :: frameTimes events) →
              ∃ ts, elapsedTrace cos fuel s0 events = some ts ∧ ts.length = events.length
                ∧ List.Sorted (fun a b : F64 => a.val ≤ b.val) (s0.t :: ts)
                ∧ ∀ u ∈ ts, 0 ≤ u.val)) := by
  constructor
  · intro cos start
    have hdata := hdata_real cos fuel hfuel
    obtain ⟨s0, hm, hco0, hcb0, hst0, ht0, -⟩ := mount_spec cos fuel hdata start handle
    have ht0' : s0.t = 0 := by rw [ht0]; simp
    refine ⟨s0, hm, hst0, ht0', ?_, ?_⟩
    · intro events now hno
      obtain ⟨s0', s, s1, hm', hr, hs, ht, hst⟩ :=
        tick_formula cos fuel same_real hdata start handle events now hno
      rw [hm] at hm'
      cases hm'
      exact ⟨s, s1, hr, hs, by rw [ht]; simp, hst⟩
    · intro events hsorted
      have hs := List.pairwise_cons.mp hsorted
      obtain ⟨ts, htr, hlen, hge, hts⟩ :=
        trace_elapsed cos fuel (· ≤ ·) same_real hdata (fun a => le_refl a)
          (fun a b c => le_trans)
          (fun st a b hab => by
            simp only [real_sub, real_div, real_lit]
            exact div_le_div_of_nonneg_right (by linarith) (by norm_num))
          start events s0 hco0 (Or.inl hcb0) hst0
          (by
            intro n hn
            rw [ht0']
            simp only [real_sub, real_div, real_lit]
            have := hs.1 n hn
            exact div_nonneg (by linarith) (by norm_num))
          hs.2
      refine ⟨ts, htr, hlen, List.pairwise_cons.mpr ⟨hge, hts⟩, ?_⟩
      intro u hu
      have := hge u hu
      rw [ht0'] at this
      exact this
  · intro cos start
    have hdata := hdata_f64 cos fuel hfuel
    obtain ⟨s0, hm, hco0, hcb0, hst0, ht0, -⟩ := mount_spec cos fuel hdata start handle
    have ht0' : s0.t.val = 0 := by rw [ht0]; exact f64_lit_zero
    refine ⟨s0, hm, hst0, ht0', ?_, ?_⟩
    · intro events now hno
      obtain ⟨s0', s, s1, hm', hr, hs, ht, hst⟩ :=
        tick_formula cos fuel same_f64 hdata start handle events now hno
      rw [hm] at hm'
      cases hm'
      exact ⟨s, s1, hr, hs, ht, by rw [ht, f64_elapsed_val], hst⟩
    · intro events hsorted
      have hs := List.pairwise_cons.mp hsorted
      obtain ⟨ts, htr, hlen, hge, hts⟩ :=
        trace_elapsed cos fuel (fun a b : F64 => a.val ≤ b.val) same_f64 hdata
          (fun a => le_refl a.val) (fun a b c => le_trans)
          (fun st a b hab => f64_elapsed_mono st a b hab)
          start events s0 hco0 (Or.inl hcb0) hst0
          (by
            intro n hn
            show s0.t.val ≤ _
            rw [ht0']
            exact f64_elapsed_nonneg start n (hs.1 n hn))
          hs.2
      refine ⟨ts, htr, hlen, List.pairwise_cons.mpr ⟨hge, hts⟩, ?_⟩
      intro u hu
      have := hge u hu
      rw [ht0'] at this
      exact this

/-! ## Range of the parameters -/

/-- What an event stores in the three parameters, in any state. -/
theorem step_params {α : Type} [JSNum α] (cos : α → α) (fuel : Nat)
    (hdata : ∀ A f φ : α, ∃ pts, data cos fuel A f φ = some pts) (s : State α)
    (e : Event α) :
    ∃ s1, step cos fuel s e = some s1
      ∧ s1.amplitude = (match e with | Event.changeAmplitude v => v | _ => s.amplitude)
      ∧ s1.frequency = (match e with | Event.changeFrequency v => v | _ => s.frequency)
      ∧ s1.phase = (match e with | Event.changePhase v => v | _ => s.phase) := by
  cases e with
  | animationFrame now =>
    obtain ⟨s1, hr, ha, hf, hp, -⟩ := render_total cos fuel hdata (runCallbacks now s)
    obtain ⟨h1, h2, h3, -⟩ := runCallbacks_keeps now s
    exact ⟨s1, hr, by rw [ha, h1], by rw [hf, h2], by rw [hp, h3]⟩
  | changeAmplitude v =>
    obtain ⟨s1, hr, ha, hf, hp, -⟩ := render_total cos fuel hdata { s with amplitude := v }
    exact ⟨s1, hr, ha, hf, hp⟩
  | changeFrequency v =>
    obtain ⟨s1, hr, ha, hf, hp, -⟩ := render_total cos fuel hdata { s with frequency := v }
    exact ⟨s1, hr, ha, hf, hp⟩
  | changePhase v =>
    obtain ⟨s1, hr, ha, hf, hp, -⟩ := render_total cos fuel hdata { s with phase := v }
    exact ⟨s1, hr, ha, hf, hp⟩
  | unmount => exact ⟨_, rfl, rfl, rfl, rfl⟩

theorem run_inRange {α : Type} [JSNum α] (cos : α → α) (fuel : Nat)
    (hdata : ∀ A f φ : α, ∃ pts, data cos fuel A f φ = some pts) (events : List (Event α)) :
    ∀ s : State α, State.inRange s = true → (∀ e ∈ events, Event.inRange e = true) →
      ∃ s1, run cos fuel s events = some s1 ∧ State.inRange s1 = true := by
  induction events with
  | nil => intro s hs _; exact ⟨s, rfl, hs⟩
  | cons e es ih =>
    intro s hs hin
    obtain ⟨s1, hs1, ha, hf, hp⟩ := step_params cos fuel hdata s e
    have he := hin e (by simp)
    have hs1in : State.inRange s1 = true := by
      simp only [State.inRange, Bool.and_eq_true] at hs ⊢
      rw [ha, hf, hp]
      cases e <;> simp_all [Event.inRange]
    obtain ⟨s2, hs2, hin2⟩ := ih s1 hs1in (fun e' he' => hin e' (List.mem_cons_of_mem _ he'))
    exact ⟨s2, by simp [run, hs1, hs2], hin2⟩

theorem f64_initial_inRange :
    amplitudeInRange (lit 120 : F64) = true ∧ frequencyInRange (lit 0.5 : F64) = true
      ∧ phaseInRange (lit 0 : F64) = true := by
  decide!

theorem f64_out_of_range :
    (lit 9999 : F64).val = 9999 ∧ amplitudeInRange (lit 9999 : F64) = false
      ∧ (lit (-5) : F64).val = -5 ∧ frequencyInRange (lit (-5) : F64) = false := by
  decide!

/-- C4, as stated, fails: the handlers store the event value as it is. In binary64, after
mounting, an amplitude event with value `9999` leaves the stored amplitude at `9999`,
outside `[20, 200]`, and a frequency event with value `-5` leaves the stored frequency
at `-5`, outside `[0.1, 2]`. -/
theorem setter_does_not_clamp :
    (∃ s, reach (fun _ => (lit 1 : F64)) 402 (lit 0) 0 [Event.changeAmplitude (lit 9999)]
          = some s
        ∧ s.amplitude.val = 9999 ∧ amplitudeInRange s.amplitude = false)
      ∧ (∃ s, reach (fun _ => (lit 1 : F64)) 402 (lit 0) 0 [Event.changeFrequency (lit (-5))]
          = some s
        ∧ s.frequency.val = -5 ∧ frequencyInRange s.frequency = false) := by
  have hdata := hdata_f64 (fun _ => (lit 1 : F64)) 402 (le_refl 402)
  obtain ⟨s0, hm, -⟩ := mount_spec (fun _ => (lit 1 : F64)) 402 hdata (lit 0) 0
  obtain ⟨h1, h2, h3, h4⟩ := f64_out_of_range
  constructor
  · obtain ⟨s1, hs1, ha, -⟩ := step_params _ 402 hdata s0 (Event.changeAmplitude (lit 9999))
    refine ⟨s1, by simp [reach, hm, run, hs1], ?_, ?_⟩
    · rw [ha]; exact h1
    · rw [ha]; exact h2
  · obtain ⟨s1, hs1, -, hf, -⟩ := step_params _ 402 hdata s0 (Event.changeFrequency (lit (-5)))
    refine ⟨s1, by simp [reach, hm, run, hs1], ?_, ?_⟩
    · rw [hf]; exact h3
    · rw [hf]; exact h4

/-- C4, amended: in binary64, for every `Math.cos`: each handler stores the value of its
event unchanged; hence, starting from the initial values `120`, `0.5`, `0`, after any
sequence of events whose slider values lie between `min` and `max` of their slider,
all three stored parameters lie within their bounds. -/
theorem in_range_inputs_stay_in_range (cos : F64 → F64) (fuel : Nat) (hfuel : 402 ≤ fuel)
    (now : F64) (handle : Nat) (events : List (Event F64))
    (hin : ∀ e ∈ events, Event.inRange e = true) :
    ∃ s, reach cos fuel now handle events = some s
      ∧ State.inRange s = true
      ∧ (∀ v, ∃ s1, step cos fuel s (Event.changeAmplitude v) = some s1 ∧ s1.amplitude = v)
      ∧ (∀ v, ∃ s1, step cos fuel s (Event.changeFrequency v) = some s1 ∧ s1.frequency = v)
      ∧ (∀ v, ∃ s1, step cos fuel s (Event.changePhase v) = some s1 ∧ s1.phase = v) := by
  have hdata := hdata_f64 cos fuel hfuel
  obtain ⟨s0, hm, -, -, -, -, ha, hf, hp, -⟩ := mount_spec cos fuel hdata now handle
  have h0 : State.inRange s0 = true := by
    obtain ⟨h1, h2, h3⟩ := f64_initial_inRange
    simp only [State.inRange, Bool.and_eq_true]
    rw [ha, hf, hp]
    exact ⟨⟨h1, h2⟩, h3⟩
  obtain ⟨s, hr, hs⟩ := run_inRange cos fuel hdata events s0 h0 hin
  refine ⟨s, by simp [reach, hm, hr], hs, ?_, ?_, ?_⟩
  · intro v
    obtain ⟨s1, hs1, h, -⟩ := step_params cos fuel hdata s (Event.changeAmplitude v)
    exact ⟨s1, hs1, h⟩
  · intro v
    obtain ⟨s1, hs1, -, h, -⟩ := step_params cos fuel hdata s (Event.changeFrequency v)
    exact ⟨s1, hs1, h⟩
  · intro v
    obtain ⟨s1, hs1, -, -, h⟩ := step_params cos fuel hdata s (Event.changePhase v)
    exact ⟨s1, hs1, h⟩

/-! ## The statements at concrete inputs -/

theorem table_shape_witness :
    (402 ≤ 402)
      ∧ ∃ pts, data (fun _ => (lit 1 : F64)) 402 (lit 120) (lit 0.5) (lit 0) = some pts
        ∧ pts.length = 401
        ∧ pts.map Sample.t
            = (List.range 401).map (fun i : ℕ => toFixed2 ((lit (i : ℚ) : F64) * lit 0.02))
        ∧ pts.map Sample.t = (List.range 401).map (fun i : ℕ => (lit ((i : ℚ) / 50) : F64))
        ∧ pts.Pairwise (fun a b => a.t.val < b.t.val)
        ∧ (pts.head?.map (fun p => p.t.val)) = some 0
        ∧ (pts.getLast?.map (fun p => p.t.val)) = some 8 :=
  ⟨le_refl 402, table_shape (fun _ => lit 1) (lit 120) (lit 0.5) (lit 0) 402 (le_refl 402)⟩

theorem table_regeneration_witness :
    (402 ≤ 402)
      ∧ ∃ s, reach (fun _ => (lit 1 : F64)) 402 (lit 0) 0 [] = some s
        ∧ s.table = data (fun _ => (lit 1 : F64)) 402 s.amplitude s.frequency s.phase
        ∧ (∀ nows : List F64, ∃ s1,
            run (fun _ => (lit 1 : F64)) 402 s (nows.map Event.animationFrame) = some s1
            ∧ s1.data = s.data ∧ s1.regenerations = s.regenerations)
        ∧ (lit 50 : F64) ≠ s.amplitude
        ∧ ∃ s1, step (fun _ => (lit 1 : F64)) 402 s (Event.changeAmplitude (lit 50)) = some s1
            ∧ s1.regenerations = s.regenerations + 1
            ∧ s1.table = data (fun _ => (lit 1 : F64)) 402 (lit 50) s.frequency s.phase := by
  obtain ⟨s, h1, h2, h3, h4, -⟩ := table_regeneration (fun _ => (lit 1 : F64)) 402
    (le_refl 402) (lit 0) 0 []
  obtain ⟨s0, hm, -, -, -, -, ha, -⟩ := mount_spec (fun _ => (lit 1 : F64)) 402
    (hdata_f64 _ 402 (le_refl 402)) (lit 0) 0
  have hs : s = s0 := by
    simp only [reach, hm, Option.some_bind, run, Option.some.injEq] at h1
    exact h1.symm
  have hne : (lit 50 : F64) ≠ s.amplitude := by
    rw [hs, ha]
    decide!
  obtain ⟨s1, g1, g2, g3, -⟩ := h4 (lit 50) hne
  exact ⟨le_refl 402, s, h1, h2, h3, hne, s1, g1, g2, g3⟩

theorem regeneration_deterministic_witness :
    (402 ≤ 402)
      ∧ ∃ q1 q2 : List (Sample F64),
          data (fun _ => (lit 1 : F64)) 402 (lit 120) (lit 0.5) (lit 0) = some q1
          ∧ q1 = q2 ∧ q1.length = 401 ∧ q2.length = 401 := by
  obtain ⟨-, -, q1, q2, -, -, -, -, -, -, h1, h2, h3, -, -, h4⟩ :=
    regeneration_deterministic (fun _ => (lit 1 : F64)) 402 (le_refl 402)
      (lit 120) (lit 0.5) (lit 0)
      { amplitude := lit 1, frequency := lit 1, phase := lit 1, t := lit 3, data := none,
        start := lit 0, frame := 1, callbacks := [1], handle := 1, regenerations := 0 }
      { amplitude := lit 2, frequency := lit 2, phase := lit 2, t := lit 7, data := none,
        start := lit 5, frame := 4, callbacks := [], handle := 4, regenerations := 9 }
  exact ⟨le_refl 402, q1, q2, h4, h1, h2, h3⟩

theorem frame_conditions_witness :
    (402 ≤ 402)
      ∧ ∃ s1, step (fun _ => (lit 1 : F64)) 402
            { amplitude := lit 120, frequency := lit 0.5, phase := lit 0, t := lit 3,
              data := none, start := lit 0, frame := 1, callbacks := [1], handle := 1,
              regenerations := 0 }
            (Event.changeAmplitude (lit 50)) = some s1
          ∧ s1.amplitude = lit 50 ∧ s1.t = lit 3 ∧ s1.frequency = lit 0.5
          ∧ s1.phase = lit 0 :=
  ⟨le_refl 402,
    (frame_conditions (fun _ => (lit 1 : F64)) 402 (le_refl 402)
      { amplitude := lit 120, frequency := lit 0.5, phase := lit 0, t := lit 3,
        data := none, start := lit 0, frame := 1, callbacks := [1], handle := 1,
        regenerations := 0 } (lit 50) (lit 16)).1⟩

theorem cancellation_witness :
    (402 ≤ 402) ∧ Event.unmount ∉ [Event.animationFrame (lit 16 : F64)]
      ∧ ∃ s, reach (fun _ => (lit 1 : F64)) 402 (lit 0) 0 [Event.animationFrame (lit 16)]
            = some s
        ∧ s.callbacks = [s.frame]
        ∧ ∃ s1, step (fun _ => (lit 1 : F64)) 402 s Event.unmount = some s1
            ∧ s1.callbacks = [] ∧ s1.t = s.t
            ∧ cancelAnimationFrame s1.frame s1 = s1 := by
  have hno : Event.unmount ∉ [Event.animationFrame (lit 16 : F64)] := by simp
  obtain ⟨s, h1, h2, s1, h3, -, h4, h5, -, h6, -⟩ :=
    cancellation (fun _ => (lit 1 : F64)) 402 (le_refl 402) (lit 0) 0
      [Event.animationFrame (lit 16)]
  exact ⟨le_refl 402, hno, s, h1, h2 hno, s1, h3, h4, h5, h6⟩

theorem f64_sorted_times :
    (lit 5 : F64).val ≤ (lit 21 : F64).val := by
  decide!

theorem elapsed_time_witness :
    (402 ≤ 402)
      ∧ List.Sorted (· ≤ ·) ((5 : ℝ) :: frameTimes [Event.animationFrame (21 : ℝ)])
      ∧ List.Sorted (fun a b : F64 => a.val ≤ b.val)
          ((lit 5 : F64) :: frameTimes [Event.animationFrame (lit 21 : F64)])
      ∧ (∃ s0, mount Real.cos 402 (5 : ℝ) 0 = some s0 ∧ s0.start = 5 ∧ s0.t = 0
          ∧ ∃ ts, elapsedTrace Real.cos 402 s0 [Event.animationFrame (21 : ℝ)] = some ts
              ∧ ts.length = 1 ∧ List.Sorted (· ≤ ·) (s0.t :: ts) ∧ ∀ u ∈ ts, 0 ≤ u)
      ∧ (∃ s0, mount (fun _ => (lit 1 : F64)) 402 (lit 5) 0 = some s0 ∧ s0.start = lit 5
          ∧ s0.t.val = 0
          ∧ ∃ ts, elapsedTrace (fun _ => (lit 1 : F64)) 402 s0
                [Event.animationFrame (lit 21 : F64)] = some ts
              ∧ ts.length = 1
              ∧ List.Sorted (fun a b : F64 => a.val ≤ b.val) (s0.t :: ts)
              ∧ ∀ u ∈ ts, 0 ≤ u.val) := by
  have hr : List.Sorted (· ≤ ·) ((5 : ℝ) :: frameTimes [Event.animationFrame (21 : ℝ)]) := by
    simp [frameTimes]
    norm_num
  have hf : List.Sorted (fun a b : F64 => a.val ≤ b.val)
      ((lit 5 : F64) :: frameTimes [Event.animationFrame (lit 21 : F64)]) := by
    simp [frameTimes]
    exact f64_sorted_times
  obtain ⟨hreal, hf64⟩ := elapsed_time 402 (le_refl 402) 0
  obtain ⟨s0, h1, h2, h3, -, h4⟩ := hreal Real.cos 5
  obtain ⟨r0, g1, g2, g3, -, g4⟩ := hf64 (fun _ => (lit 1 : F64)) (lit 5)
  exact ⟨le_refl 402, hr, hf, ⟨s0, h1, h2, h3, h4 [Event.animationFrame 21] hr⟩,
    ⟨r0, g1, g2, g3, g4 [Event.animationFrame (lit 21)] hf⟩⟩

theorem in_range_inputs_stay_in_range_witness :
    (402 ≤ 402)
      ∧ (∀ e ∈ [Event.changeAmplitude (lit 200 : F64), Event.changeFrequency (lit 0.1),
            Event.animationFrame (lit 16)], Event.inRange e = true)
      ∧ ∃ s, reach (fun _ => (lit 1 : F64)) 402 (lit 0) 0
            [Event.changeAmplitude (lit 200), Event.changeFrequency (lit 0.1),
              Event.animationFrame (lit 16)] = some s
          ∧ State.inRange s = true := by
  have hin : ∀ e ∈ [Event.changeAmplitude (lit 200 : F64), Event.changeFrequency (lit 0.1),
      Event.animationFrame (lit 16)], Event.inRange e = true := by
    decide!
  obtain ⟨s, h1, h2, -⟩ := in_range_inputs_stay_in_range (fun _ => (lit 1 : F64)) 402
    (le_refl 402) (lit 0) 0 _ hin
  exact ⟨le_refl 402, hin, s, h1, h2⟩

end SHMApplet
